import Mathlib

/-!
# blockchain_go: proof of work, Merkle commitment and chain store

A shallow embedding of `block.go`, `proofofwork.go`, `merkle_tree.go`,
`transaction_input.go` and `blockchain.go`.

Conventions of the embedding.

* A Go `[]byte` is the list of its bytes (`Bytes`); `len(x) == 0` is `x.length = 0`.
* A Go call that can end in a run-time panic (`log.Panic`, an index out of
  range, a nil dereference) returns an `Option`; `none` is the panic.
* `crypto/sha256`, `encoding/gob`, the wall clock and the parts of
  `Transaction` that live outside the five source files are parameters,
  collected in `Env` or passed as arguments (`now`).
* Go `int` is 64 bits wide here (`maxNonce = math.MaxInt64` is assigned to an
  `int`), so `lastHeight+1` wraps around at `2^63`.
-/

namespace BlockchainGo

/-- A Go byte slice as the list of its bytes. -/
abbrev Bytes := List Nat

/-! ## Transactions (`transaction_input.go`, and the declarations the sources use) -/

/-- TXInput represents a transaction input (`transaction_input.go`). -/
structure TXInput where
  Txid : Bytes
  Vout : Int
  Signature : Bytes
  PubKey : Bytes
deriving DecidableEq, Repr

/-- Modelled from the spec: the `TXOutput` type declaration is outside the
given sources; "a value and a locking public-key hash". -/
structure TXOutput where
  Value : Int
  PubKeyHash : Bytes
deriving DecidableEq, Repr

/-- Modelled from the spec: the `Transaction` type declaration is outside the
given sources; "`id`, ordered sequence of inputs, ordered sequence of outputs". -/
structure Transaction where
  ID : Bytes
  Vin : List TXInput
  Vout : List TXOutput
deriving DecidableEq, Repr

/-- Block represents a block in the blockchain (`block.go`). -/
structure Block where
  Timestamp : Int
  Transactions : List Transaction
  PrevBlockHash : Bytes
  Hash : Bytes
  Nonce : Int
  Height : Int
deriving DecidableEq, Repr

/-- The library and out-of-source functions the five files call.

* `sha256` is `sha256.Sum256`; its Go result type is `[32]byte`, which is the
  field `sha256_length`.
* `txSerialize` is `Transaction.Serialize` and `txVerify` is
  `Transaction.Verify` (both in `transaction.go`); `txVerify` may panic.
* `gobEncode`/`gobDecode` are what `encoding/gob` does to a `Block` in
  `Block.Serialize` and `DeserializeBlock`; a decoding error is `none`. -/
structure Env where
  sha256 : Bytes → Bytes
  sha256_length : ∀ data, (sha256 data).length = 32
  txSerialize : Transaction → Bytes
  txVerify : Transaction → List (Bytes × Transaction) → Option Bool
  gobEncode : Block → Bytes
  gobDecode : Bytes → Option Block

/-! ## `merkle_tree.go` -/

/-- MerkleNode represent a Merkle tree node; a nil child pointer is `none`. -/
inductive MerkleNode where
  | mk (Left Right : Option MerkleNode) (Data : Bytes)

/-- The `Data` field of a node. -/
def MerkleNode.Data : MerkleNode → Bytes
  | .mk _ _ d => d

/-- MerkleTree represent a Merkle tree. -/
structure MerkleTree where
  RootNode : MerkleNode

/-- NewMerkleNode creates a new Merkle tree node. With both children nil the
data is hashed; otherwise `left.Data` and `right.Data` are read, which is a nil
dereference when exactly one child is nil. -/
def NewMerkleNode (env : Env) (left right : Option MerkleNode) (data : Bytes) :
    Option MerkleNode :=
  match left, right with
  | none, none => some (.mk none none (env.sha256 data))
  | some l, some r => some (.mk (some l) (some r) (env.sha256 (l.Data ++ r.Data)))
  | _, _ => none

/-- The first statement of `NewMerkleTree`:
`if len(data)%2 != 0 { data = append(data, data[len(data)-1]) }`. -/
def NewMerkleTree.pad (data : List Bytes) : Option (List Bytes) :=
  if data.length % 2 ≠ 0 then
    match data[data.length - 1]? with
    | some last => some (data ++ [last])
    | none => none
  else some data

/-- The leaf loop of `NewMerkleTree`:
`for _, datum := range data { nodes = append(nodes, *NewMerkleNode(nil, nil, datum)) }`. -/
def NewMerkleTree.leaves (env : Env) : List Bytes → Option (List MerkleNode)
  | [] => some []
  | datum :: rest =>
    match NewMerkleNode env none none datum with
    | none => none
    | some node =>
      match NewMerkleTree.leaves env rest with
      | none => none
      | some nodes => some (node :: nodes)

/-- The inner loop of `NewMerkleTree`:
`for j := 0; j < len(nodes); j += 2 { NewMerkleNode(&nodes[j], &nodes[j+1], nil) }`.
With one node left, `nodes[j+1]` is out of range. -/
def NewMerkleTree.level (env : Env) : List MerkleNode → Option (List MerkleNode)
  | [] => some []
  | [_] => none
  | l :: r :: rest =>
    match NewMerkleNode env (some l) (some r) [] with
    | none => none
    | some node =>
      match NewMerkleTree.level env rest with
      | none => none
      | some newLevel => some (node :: newLevel)

/-- The outer loop of `NewMerkleTree`: `for i := 0; i < len(data)/2; i++`,
with `count` the number of iterations left. -/
def NewMerkleTree.levels (env : Env) : Nat → List MerkleNode → Option (List MerkleNode)
  | 0, nodes => some nodes
  | count + 1, nodes =>
    match NewMerkleTree.level env nodes with
    | none => none
    | some newLevel => NewMerkleTree.levels env count newLevel

/-- NewMerkleTree creates a new Merkle tree from a sequence of data. The last
statement takes `&nodes[0]`, out of range when no node is left. -/
def NewMerkleTree (env : Env) (data : List Bytes) : Option MerkleTree :=
  match NewMerkleTree.pad data with
  | none => none
  | some data =>
    match NewMerkleTree.leaves env data with
    | none => none
    | some nodes =>
      match NewMerkleTree.levels env (data.length / 2) nodes with
      | none => none
      | some [] => none
      | some (root :: _) => some ⟨root⟩

/-- The root value `mTree.RootNode.Data` of `NewMerkleTree(data)`. -/
def merkleRoot (env : Env) (data : List Bytes) : Option Bytes :=
  (NewMerkleTree env data).map (fun mTree => mTree.RootNode.Data)

/-! ### The Merkle root as the specification words it -/

/-- One level of the reference construction: "if the count at any level is odd,
duplicate the last element before pairing"; each pair becomes
`SHA256(left || right)`. -/
def refLevel (env : Env) : List Bytes → List Bytes
  | [] => []
  | [x] => [env.sha256 (x ++ x)]
  | l :: r :: rest => env.sha256 (l ++ r) :: refLevel env rest

/-- "Recurse until one node remains": a level is built, and again while more
than one value is left. `steps` bounds the number of levels; `refMerkleRoot`
passes enough of them. -/
def refReduce (env : Env) : Nat → List Bytes → Option Bytes
  | 0, _ => none
  | steps + 1, xs =>
    match refLevel env xs with
    | [] => none
    | [root] => some root
    | next => refReduce env steps next

/-- The reference Merkle root of a sequence of byte strings: leaves are
`SHA256(datum)`, then levels until one node remains. A single datum is paired
with itself by the odd-count rule. -/
def refMerkleRoot (env : Env) (data : List Bytes) : Option Bytes :=
  refReduce env data.length (data.map env.sha256)

/-! ## `proofofwork.go` -/

/-- The Go variable `maxNonce = math.MaxInt64`. -/
def maxNonce : Nat := 9223372036854775807

/-- The Go constant `targetBits = 16`. -/
def targetBits : Nat := 16

/-- Modelled from the spec: `IntToHex` is in a file outside the given sources;
the spec has the header fields as "big-endian 8-byte" values, so this is the
big-endian two's-complement image of an `int64`. -/
def IntToHex (num : Int) : Bytes :=
  let u := (num % 18446744073709551616).toNat
  [u / 2 ^ 56 % 256, u / 2 ^ 48 % 256, u / 2 ^ 40 % 256, u / 2 ^ 32 % 256,
   u / 2 ^ 24 % 256, u / 2 ^ 16 % 256, u / 2 ^ 8 % 256, u % 256]

/-- The value of `big.Int.SetBytes`: the bytes read as a big-endian unsigned integer. -/
def hashInt (hash : Bytes) : Nat :=
  hash.foldl (fun acc byte => acc * 256 + byte) 0

/-- ProofOfWork represents a proof-of-work. -/
structure ProofOfWork where
  block : Block
  target : Nat
deriving DecidableEq, Repr

/-- NewProofOfWork builds and returns a ProofOfWork: the target is `1 << (256-targetBits)`. -/
def NewProofOfWork (b : Block) : ProofOfWork :=
  ⟨b, 1 * 2 ^ (256 - targetBits)⟩

/-- HashTransactions returns a hash of the transactions in the block (`block.go`). -/
def HashTransactions (env : Env) (b : Block) : Option Bytes :=
  merkleRoot env (b.Transactions.map env.txSerialize)

/-- The header preimage `bytes.Join(..., []byte{})` of `prepareData`. -/
def prepareData (env : Env) (pow : ProofOfWork) (nonce : Int) : Option Bytes :=
  match HashTransactions env pow.block with
  | none => none
  | some root =>
    some (pow.block.PrevBlockHash ++ root ++ IntToHex pow.block.Timestamp
      ++ IntToHex (targetBits : Int) ++ IntToHex nonce)

/-- The loop `for nonce < maxNonce { ... }` of `Run`, from the state
`(nonce, hash)`. `left` counts the iterations the loop bound still allows
(`maxNonce - nonce` when called from `Run`), which makes the recursion
structural; at `left = 0` the loop test fails and the state is returned. -/
def Run.loop (env : Env) (pow : ProofOfWork) : Nat → Nat → Bytes → Option (Nat × Bytes)
  | 0, nonce, hash => some (nonce, hash)
  | left + 1, nonce, hash =>
    if nonce < maxNonce then
      match prepareData env pow (nonce : Int) with
      | none => none
      | some data =>
        let hash := env.sha256 data
        if hashInt hash < pow.target then some (nonce, hash)
        else Run.loop env pow left (nonce + 1) hash
    else some (nonce, hash)

/-- Run performs a proof-of-work: `nonce := 0`, `var hash [32]byte`, the loop,
then `return nonce, hash[:]`. -/
def Run (env : Env) (pow : ProofOfWork) : Option (Nat × Bytes) :=
  Run.loop env pow maxNonce 0 (List.replicate 32 0)

/-- Validate validates block's PoW. -/
def Validate (env : Env) (pow : ProofOfWork) : Option Bool :=
  match prepareData env pow pow.block.Nonce with
  | none => none
  | some data => some (decide (hashInt (env.sha256 data) < pow.target))

/-! ## `block.go` -/

/-- NewBlock creates and returns Block; `now` is `time.Now().Unix()`. -/
def NewBlock (env : Env) (now : Int) (transactions : List Transaction)
    (prevBlockHash : Bytes) (height : Int) : Option Block :=
  let block : Block := ⟨now, transactions, prevBlockHash, [], 0, height⟩
  let pow := NewProofOfWork block
  match Run env pow with
  | none => none
  | some (nonce, hash) => some { block with Hash := hash, Nonce := (nonce : Int) }

/-- NewGenesisBlock creates and returns genesis Block. -/
def NewGenesisBlock (env : Env) (now : Int) (coinbase : Transaction) : Option Block :=
  NewBlock env now [coinbase] [] 0

/-! ## The key-value store (`github.com/boltdb/bolt`)

`blockchain.go` keeps everything in one bucket, `blocks`. -/

/-- A bucket, as its key/value pairs (at most one pair per key). -/
structure Bucket where
  entries : List (Bytes × Bytes)
deriving DecidableEq, Repr

/-- The value among the pairs stored under `key`. -/
def Bucket.lookup (key : Bytes) : List (Bytes × Bytes) → Option Bytes
  | [] => none
  | (k, v) :: rest => if k = key then some v else Bucket.lookup key rest

/-- The pairs without those stored under `key`. -/
def Bucket.remove (key : Bytes) : List (Bytes × Bytes) → List (Bytes × Bytes)
  | [] => []
  | (k, v) :: rest =>
    if k = key then Bucket.remove key rest else (k, v) :: Bucket.remove key rest

/-- `Bucket.Get`: the value under the key, `none` (Go nil) when there is none. -/
def Bucket.Get (b : Bucket) (key : Bytes) : Option Bytes :=
  Bucket.lookup key b.entries

/-- `Bucket.Put`: sets the value under the key. Bolt returns an error, which
every caller in `blockchain.go` turns into `log.Panic`, for an empty key, a key
above `MaxKeySize` or a value above `MaxValueSize`. -/
def Bucket.Put (b : Bucket) (key value : Bytes) : Option Bucket :=
  if key.length = 0 ∨ 32768 < key.length ∨ 2147483646 < value.length then none
  else some ⟨(key, value) :: Bucket.remove key b.entries⟩

/-- The reserved key `[]byte("l")` under which the tip hash is kept. -/
def tipKey : Bytes := [108]

/-! ## `blockchain.go` -/

/-- Blockchain implements interactions with a DB: the in-memory tip and the
database, which is its one bucket `blocks`. -/
structure Blockchain where
  tip : Bytes
  db : Bucket
deriving DecidableEq, Repr

/-- Outcome of a call that walks the chain: a result, a panic, or a walk that
needs more steps than the `fuel` it was given (a walk that never ends is
`unfinished` for every fuel). -/
inductive Outcome (α : Type) where
  | ok (result : α)
  | panic
  | unfinished
deriving DecidableEq, Repr

/-- Serialize serializes the block (`block.go`). -/
def Serialize (env : Env) (b : Block) : Bytes :=
  env.gobEncode b

/-- DeserializeBlock deserializes a block (`block.go`); a decoding error ends in
`log.Panic`. The argument is what `Bucket.Get` returned: decoding the nil slice
is an error. -/
def DeserializeBlock (env : Env) (d : Option Bytes) : Option Block :=
  match d with
  | none => none
  | some d => env.gobDecode d

/-- CreateBlockchain creates a new blockchain DB. `dbExists` is the result of
the file test (`os.Exit(1)` when the file exists), `cbtx` the transaction
`NewCoinbaseTX(address, genesisCoinbaseData)` returned, and `now` the clock. -/
def CreateBlockchain (env : Env) (dbExists : Bool) (cbtx : Transaction) (now : Int) :
    Option Blockchain :=
  if dbExists then none
  else
    match NewGenesisBlock env now cbtx with
    | none => none
    | some genesis =>
      match Bucket.Put ⟨[]⟩ genesis.Hash (Serialize env genesis) with
      | none => none
      | some b1 =>
        match b1.Put tipKey genesis.Hash with
        | none => none
        | some b2 => some ⟨genesis.Hash, b2⟩

/-- AddBlock saves the block into the blockchain. -/
def AddBlock (env : Env) (bc : Blockchain) (block : Block) : Option Blockchain :=
  match bc.db.Get block.Hash with
  | some _ => some bc
  | none =>
    match bc.db.Put block.Hash (Serialize env block) with
    | none => none
    | some b1 =>
      match b1.Get tipKey with
      | none => none
      | some lastHash =>
        match DeserializeBlock env (b1.Get lastHash) with
        | none => none
        | some lastBlock =>
          if block.Height > lastBlock.Height then
            match b1.Put tipKey block.Hash with
            | none => none
            | some b2 => some ⟨block.Hash, b2⟩
          else some ⟨bc.tip, b1⟩

/-- GetBestHeight returns the height of the latest block. -/
def GetBestHeight (env : Env) (bc : Blockchain) : Option Int :=
  match bc.db.Get tipKey with
  | none => none
  | some lastHash =>
    match DeserializeBlock env (bc.db.Get lastHash) with
    | none => none
    | some lastBlock => some lastBlock.Height

/-- BlockchainIterator is used to iterate over blockchain blocks. -/
structure BlockchainIterator where
  currentHash : Bytes
deriving DecidableEq, Repr

/-- Iterator returns a BlockchainIterat. -/
def Iterator (bc : Blockchain) : BlockchainIterator :=
  ⟨bc.tip⟩

/-- Modelled from the spec: `BlockchainIterator.Next` is in a file outside the
given sources; "a lazy, backward sequence of blocks starting at tip and
following `prev_hash`", which "reads directly from the store". It decodes the
block stored under the current hash and moves to its `prev_hash`. -/
def BlockchainIterator.Next (env : Env) (db : Bucket) (i : BlockchainIterator) :
    Option (Block × BlockchainIterator) :=
  match DeserializeBlock env (db.Get i.currentHash) with
  | none => none
  | some block => some (block, ⟨block.PrevBlockHash⟩)

/-- The loop of `GetBlockHashes`; each step of `fuel` is one `bci.Next()`. -/
def GetBlockHashes.loop (env : Env) (db : Bucket) :
    Nat → BlockchainIterator → List Bytes → Outcome (List Bytes)
  | 0, _, _ => .unfinished
  | fuel + 1, bci, blocks =>
    match bci.Next env db with
    | none => .panic
    | some (block, bci) =>
      if block.PrevBlockHash.length = 0 then .ok (blocks ++ [block.Hash])
      else GetBlockHashes.loop env db fuel bci (blocks ++ [block.Hash])

/-- GetBlockHashes returns a list of hashes of all the blocks in the chain. -/
def GetBlockHashes (env : Env) (fuel : Nat) (bc : Blockchain) : Outcome (List Bytes) :=
  GetBlockHashes.loop env bc.db fuel (Iterator bc) []

/-- The error value of `FindTransaction`. -/
def errTransactionNotFound : String := "Transaction is not found"

/-- The loop of `FindTransaction`; each step of `fuel` is one `bci.Next()`. -/
def FindTransaction.loop (env : Env) (db : Bucket) (ID : Bytes) :
    Nat → BlockchainIterator → Outcome (Except String Transaction)
  | 0, _ => .unfinished
  | fuel + 1, bci =>
    match bci.Next env db with
    | none => .panic
    | some (block, bci) =>
      match block.Transactions.find? (fun tx => decide (tx.ID = ID)) with
      | some tx => .ok (.ok tx)
      | none =>
        if block.PrevBlockHash.length = 0 then .ok (.error errTransactionNotFound)
        else FindTransaction.loop env db ID fuel bci

/-- FindTransaction finds a transaction by its ID. -/
def FindTransaction (env : Env) (fuel : Nat) (bc : Blockchain) (ID : Bytes) :
    Outcome (Except String Transaction) :=
  FindTransaction.loop env bc.db ID fuel (Iterator bc)

/-- Modelled from the spec: `Transaction.IsCoinbase` is outside the given
sources; "a transaction with a single input whose referenced id is empty and
index is −1". -/
def IsCoinbase (tx : Transaction) : Bool :=
  match tx.Vin with
  | [vin] => decide (vin.Txid.length = 0 ∧ vin.Vout = -1)
  | _ => false

/-- The assignment `prevTXs[key] = value` on a Go map, kept as a list of pairs;
the key stands for the hex string of the transaction id. -/
def mapSet (m : List (Bytes × Transaction)) (key : Bytes) (value : Transaction) :
    List (Bytes × Transaction) :=
  (key, value) :: m.filter (fun e => decide (e.1 ≠ key))

/-- The loop of `VerifyTransaction` that collects the referenced transactions;
an error of `FindTransaction` ends in `log.Panic`. -/
def VerifyTransaction.collect (env : Env) (fuel : Nat) (bc : Blockchain) :
    List TXInput → List (Bytes × Transaction) → Outcome (List (Bytes × Transaction))
  | [], prevTXs => .ok prevTXs
  | vin :: rest, prevTXs =>
    match FindTransaction env fuel bc vin.Txid with
    | .unfinished => .unfinished
    | .panic => .panic
    | .ok (.error _) => .panic
    | .ok (.ok prevTX) =>
      VerifyTransaction.collect env fuel bc rest (mapSet prevTXs prevTX.ID prevTX)

/-- VerifyTransaction verifies transaction input signatures. -/
def VerifyTransaction (env : Env) (fuel : Nat) (bc : Blockchain) (tx : Transaction) :
    Outcome Bool :=
  if IsCoinbase tx then .ok true
  else
    match VerifyTransaction.collect env fuel bc tx.Vin [] with
    | .unfinished => .unfinished
    | .panic => .panic
    | .ok prevTXs =>
      match env.txVerify tx prevTXs with
      | none => .panic
      | some valid => .ok valid

/-- The first loop of `MineBlock`: every transaction is verified, and an
invalid one ends in `log.Panic("ERROR: Invalid transaction")`. -/
def MineBlock.verifyAll (env : Env) (fuel : Nat) (bc : Blockchain) :
    List Transaction → Outcome Unit
  | [] => .ok ()
  | tx :: rest =>
    match VerifyTransaction env fuel bc tx with
    | .unfinished => .unfinished
    | .panic => .panic
    | .ok false => .panic
    | .ok true => MineBlock.verifyAll env fuel bc rest

/-- Addition of two Go `int`s: the sum wraps around modulo `2^64`. -/
def addInt (a b : Int) : Int :=
  (a + b + 9223372036854775808) % 18446744073709551616 - 9223372036854775808

/-- MineBlock mines a new block with the provided transactions. The result is
the new block together with the chain after the call. -/
def MineBlock (env : Env) (fuel : Nat) (bc : Blockchain) (transactions : List Transaction)
    (now : Int) : Outcome (Block × Blockchain) :=
  match MineBlock.verifyAll env fuel bc transactions with
  | .unfinished => .unfinished
  | .panic => .panic
  | .ok _ =>
    match bc.db.Get tipKey with
    | none => .panic
    | some lastHash =>
      match DeserializeBlock env (bc.db.Get lastHash) with
      | none => .panic
      | some block =>
        match NewBlock env now transactions lastHash (addInt block.Height 1) with
        | none => .panic
        | some newBlock =>
          match bc.db.Put newBlock.Hash (Serialize env newBlock) with
          | none => .panic
          | some b1 =>
            match b1.Put tipKey newBlock.Hash with
            | none => .panic
            | some b2 => .ok (newBlock, ⟨newBlock.Hash, b2⟩)

/-- The store a call of `MineBlock` leaves behind. The only writes are in the
closing `db.Update` (two `Put`s, then `bc.tip = newBlock.Hash`), which bolt
rolls back when the closure panics; a call that does not return leaves the
store as it found it. -/
def MineBlock.storeAfter (env : Env) (fuel : Nat) (bc : Blockchain)
    (transactions : List Transaction) (now : Int) : Blockchain :=
  match MineBlock env fuel bc transactions now with
  | .ok (_, bc2) => bc2
  | _ => bc

/-- The error value of `GetBlock`. -/
def errBlockNotFound : String := "Block is not found."

/-- GetBlock finds a block by its hash and returns it. The Go result
`(Block, error)` is an `Except`; `none` is the `log.Panic` of `DeserializeBlock`. -/
def GetBlock (env : Env) (bc : Blockchain) (blockHash : Bytes) :
    Option (Except String Block) :=
  match bc.db.Get blockHash with
  | none => some (.error errBlockNotFound)
  | some blockData =>
    match DeserializeBlock env (some blockData) with
    | none => none
    | some block => some (.ok block)

/-- Modelled from the spec: the `TXOutputs` type declaration is outside the
given sources; `FindUTXO` returns "a mapping from transaction id (hex-encoded)
to the list of its unspent outputs". -/
structure TXOutputs where
  Outputs : List TXOutput
deriving DecidableEq, Repr

/-- The value a Go map holds under `key`, `none` when the key is absent. The map
is kept as a list of pairs, at most one per key; a key stands for the hex
string of a transaction id. -/
def mapGet {α : Type} (key : Bytes) : List (Bytes × α) → Option α
  | [] => none
  | (k, v) :: rest => if k = key then some v else mapGet key rest

/-- The pairs of a Go map without those under `key`. -/
def mapRemove {α : Type} (key : Bytes) : List (Bytes × α) → List (Bytes × α)
  | [] => []
  | (k, v) :: rest =>
    if k = key then mapRemove key rest else (k, v) :: mapRemove key rest

/-- The assignment `m[key] = value` on a Go map. -/
def mapPut {α : Type} (m : List (Bytes × α)) (key : Bytes) (value : α) :
    List (Bytes × α) :=
  (key, value) :: mapRemove key m

/-- The test in the `Outputs` loop of `FindUTXO`: `spentTXOs[txID] != nil` and
some `spentOutIdx == outIdx`. -/
def FindUTXO.isSpent (spentTXOs : List (Bytes × List Int)) (txID : Bytes) (outIdx : Nat) :
    Bool :=
  match mapGet txID spentTXOs with
  | none => false
  | some spent => decide ((outIdx : Int) ∈ spent)

/-- The loop `for outIdx, out := range tx.Vout` of `FindUTXO`, from the index
`outIdx` on. -/
def FindUTXO.outputs (spentTXOs : List (Bytes × List Int)) (txID : Bytes) :
    Nat → List TXOutput → List (Bytes × TXOutputs) → List (Bytes × TXOutputs)
  | _, [], UTXO => UTXO
  | outIdx, out :: rest, UTXO =>
    if FindUTXO.isSpent spentTXOs txID outIdx then
      FindUTXO.outputs spentTXOs txID (outIdx + 1) rest UTXO
    else
      let outs : TXOutputs := (mapGet txID UTXO).getD ⟨[]⟩
      FindUTXO.outputs spentTXOs txID (outIdx + 1) rest
        (mapPut UTXO txID ⟨outs.Outputs ++ [out]⟩)

/-- The loop `for _, in := range tx.Vin` of `FindUTXO`. -/
def FindUTXO.inputs : List TXInput → List (Bytes × List Int) → List (Bytes × List Int)
  | [], spentTXOs => spentTXOs
  | vin :: rest, spentTXOs =>
    FindUTXO.inputs rest
      (mapPut spentTXOs vin.Txid ((mapGet vin.Txid spentTXOs).getD [] ++ [vin.Vout]))

/-- The loop `for _, tx := range block.Transactions` of `FindUTXO`, on the pair
of maps `(UTXO, spentTXOs)`. -/
def FindUTXO.transactions :
    List Transaction → List (Bytes × TXOutputs) × List (Bytes × List Int) →
      List (Bytes × TXOutputs) × List (Bytes × List Int)
  | [], maps => maps
  | tx :: rest, (UTXO, spentTXOs) =>
    FindUTXO.transactions rest
      (FindUTXO.outputs spentTXOs tx.ID 0 tx.Vout UTXO,
        if IsCoinbase tx = false then FindUTXO.inputs tx.Vin spentTXOs else spentTXOs)

/-- The outer loop of `FindUTXO`; each step of `fuel` is one `bci.Next()`. -/
def FindUTXO.loop (env : Env) (db : Bucket) :
    Nat → BlockchainIterator → List (Bytes × TXOutputs) × List (Bytes × List Int) →
      Outcome (List (Bytes × TXOutputs))
  | 0, _, _ => .unfinished
  | fuel + 1, bci, maps =>
    match bci.Next env db with
    | none => .panic
    | some (block, bci) =>
      if block.PrevBlockHash.length = 0 then
        .ok (FindUTXO.transactions block.Transactions maps).1
      else FindUTXO.loop env db fuel bci (FindUTXO.transactions block.Transactions maps)

/-- FindUTXO finds all unspent transaction outputs and returns transactions with
spent outputs removed. -/
def FindUTXO (env : Env) (fuel : Nat) (bc : Blockchain) :
    Outcome (List (Bytes × TXOutputs)) :=
  FindUTXO.loop env bc.db fuel (Iterator bc) ([], [])

/-! ## Reachable stores and the properties claimed of them -/

/-- The stores reachable from `CreateBlockchain` by `AddBlock` and `MineBlock`
calls. `addOk bc block` says which `AddBlock` calls are counted and
`mineOk bc newBlock` which `MineBlock` calls (by the block they return); with
both constantly true these are all the reachable stores. -/
inductive Reachable (env : Env) (addOk : Blockchain → Block → Prop)
    (mineOk : Blockchain → Block → Prop) : Blockchain → Prop where
  | create (dbExists : Bool) (cbtx : Transaction) (now : Int) (bc : Blockchain) :
      CreateBlockchain env dbExists cbtx now = some bc → Reachable env addOk mineOk bc
  | addBlock (bc : Blockchain) (block : Block) (bc2 : Blockchain) :
      Reachable env addOk mineOk bc → addOk bc block →
      AddBlock env bc block = some bc2 → Reachable env addOk mineOk bc2
  | mineBlock (bc : Blockchain) (fuel : Nat) (transactions : List Transaction) (now : Int)
      (newBlock : Block) (bc2 : Blockchain) :
      Reachable env addOk mineOk bc → mineOk bc newBlock →
      MineBlock env fuel bc transactions now = .ok (newBlock, bc2) →
      Reachable env addOk mineOk bc2

/-- Every call is counted. -/
def anyCall (_ : Blockchain) (_ : Block) : Prop := True

/-- The block `blk` is stored under the hash `h`: `h` is not the reserved tip
key and the value under `h` decodes to `blk`. -/
def StoredBlock (env : Env) (db : Bucket) (h : Bytes) (blk : Block) : Prop :=
  h ≠ tipKey ∧ ∃ v, db.Get h = some v ∧ env.gobDecode v = some blk

/-- The tip names a stored block of greatest height: the persisted tip key and
the in-memory tip agree, the tip is the hash of a stored block, and no stored
block is higher. -/
def TipIsMax (env : Env) (bc : Blockchain) : Prop :=
  bc.db.Get tipKey = some bc.tip ∧
  ∃ tipBlock, StoredBlock env bc.db bc.tip tipBlock ∧
    ∀ h blk, StoredBlock env bc.db h blk → blk.Height ≤ tipBlock.Height

/-- In `bc` the height of the tip block plus one does not overflow a Go `int`. -/
def heightFits (env : Env) (bc : Blockchain) (_ : Block) : Prop :=
  ∀ h, GetBestHeight env bc = some h → addInt h 1 = h + 1

/-- Following `prev_hash` from the hash `h` visits exactly `n + 1` stored blocks,
the last of them with empty `prev_hash`, and the heights count down from `n` to 0. -/
def ChainFrom (env : Env) (db : Bucket) : Nat → Bytes → Prop
  | 0, h => ∃ blk, StoredBlock env db h blk ∧ blk.PrevBlockHash = [] ∧ blk.Height = 0
  | n + 1, h => ∃ blk, StoredBlock env db h blk ∧ blk.PrevBlockHash ≠ [] ∧
      blk.Height = ((n + 1 : Nat) : Int) ∧ ChainFrom env db n blk.PrevBlockHash

/-- The block given to `AddBlock` is linked to the store: it is already stored,
or it is a genesis block (empty `prev_hash`, height 0), or its non-empty
`prev_hash` names a stored block of height one less. -/
def linkedBlock (env : Env) (bc : Blockchain) (block : Block) : Prop :=
  bc.db.Get block.Hash ≠ none ∨
  (block.PrevBlockHash = [] ∧ block.Height = 0) ∨
  (block.PrevBlockHash ≠ [] ∧ ∃ parent, StoredBlock env bc.db block.PrevBlockHash parent ∧
    block.Height = parent.Height + 1)

/-- The block `MineBlock` returned has a hash that was not yet a key of the
store, and the height of the tip block plus one did not overflow. -/
def freshBlock (env : Env) (bc : Blockchain) (newBlock : Block) : Prop :=
  bc.db.Get newBlock.Hash = none ∧ heightFits env bc newBlock

/-- The blocks a walk with the iterator visits from `bci` on, in the order of
the walk, up to and with the first block whose `prev_hash` is empty. -/
def chainBlocks.loop (env : Env) (db : Bucket) :
    Nat → BlockchainIterator → Outcome (List Block)
  | 0, _ => .unfinished
  | fuel + 1, bci =>
    match bci.Next env db with
    | none => .panic
    | some (block, bci) =>
      if block.PrevBlockHash.length = 0 then .ok [block]
      else
        match chainBlocks.loop env db fuel bci with
        | .ok rest => .ok (block :: rest)
        | .panic => .panic
        | .unfinished => .unfinished

/-- The chain of the store: the blocks walked from the tip to the genesis block. -/
def chainBlocks (env : Env) (fuel : Nat) (bc : Blockchain) : Outcome (List Block) :=
  chainBlocks.loop env bc.db fuel (Iterator bc)

/-- The transactions of a chain in the order the scans visit them: blocks tip
to genesis, transactions in block order. -/
def scanOrder : List Block → List Transaction
  | [] => []
  | block :: rest => block.Transactions ++ scanOrder rest

/-- The outputs listed under `id` in the map `FindUTXO` returns, none when the
map has no entry for `id`. -/
def outputsOf (UTXO : List (Bytes × TXOutputs)) (id : Bytes) : List TXOutput :=
  match mapGet id UTXO with
  | none => []
  | some outs => outs.Outputs

/-- The output indices that the inputs of the non-coinbase transactions among
`txs` reference in the transaction `id`. -/
def referencedIn (id : Bytes) : List Transaction → List Int
  | [] => []
  | tx :: rest =>
    (if IsCoinbase tx = false then
        (tx.Vin.filter (fun vin => decide (vin.Txid = id))).map (fun vin => vin.Vout)
      else []) ++ referencedIn id rest

/-- The outputs, from position `idx` on and in increasing index order, whose
index is not among `refs`. -/
def unreferenced (refs : List Int) : Nat → List TXOutput → List TXOutput
  | _, [] => []
  | idx, out :: rest =>
    if (idx : Int) ∈ refs then unreferenced refs (idx + 1) rest
    else out :: unreferenced refs (idx + 1) rest

/-- Every transaction that spends an output is visited before the transaction
owning it: for each `tx` of the scan, no non-coinbase transaction visited with
or after `tx` has an input referencing an output of `tx` (the id of `tx` with
an index in range). -/
def SpendersFirst : List Transaction → Prop
  | [] => True
  | tx :: post =>
    (∀ spender ∈ tx :: post, IsCoinbase spender = false →
      ∀ vin ∈ spender.Vin, vin.Txid = tx.ID →
        ¬ (0 ≤ vin.Vout ∧ vin.Vout < (tx.Vout.length : Int))) ∧
    SpendersFirst post

/-- `SpendersFirst` can be computed. -/
instance SpendersFirst.instDecidable : ∀ txs : List Transaction, Decidable (SpendersFirst txs)
  | [] => isTrue trivial
  | tx :: post =>
    have := SpendersFirst.instDecidable post
    inferInstanceAs (Decidable
      ((∀ spender ∈ tx :: post, IsCoinbase spender = false →
        ∀ vin ∈ spender.Vin, vin.Txid = tx.ID →
          ¬ (0 ≤ vin.Vout ∧ vin.Vout < (tx.Vout.length : Int))) ∧
      SpendersFirst post))

/-- What the scan of `txs` lists under `id` when the transactions `earlier` were
visited before it: every transaction with that id gives, in scan order, its
outputs whose index no input of a non-coinbase transaction visited earlier
references. -/
def scanned (id : Bytes) : List Transaction → List Transaction → List TXOutput
  | _, [] => []
  | earlier, tx :: rest =>
    (if tx.ID = id then unreferenced (referencedIn id earlier) 0 tx.Vout else [])
      ++ scanned id (earlier ++ [tx]) rest

/-- What the transactions with id `id` among `txs` leave when each gives up its
output at position `index`. -/
def outputsExcept (index : Nat) (id : Bytes) : List Transaction → List TXOutput
  | [] => []
  | tx :: rest =>
    (if tx.ID = id then tx.Vout.eraseIdx index else []) ++ outputsExcept index id rest

/-! ## A small concrete environment

Used to evaluate the definitions on concrete inputs. -/

namespace Toy

/-- A 32-byte stand-in for SHA-256: the first byte is 255 when the last input
byte is below 3 and 0 otherwise, the second is 0, and the other thirty are the
last thirty input bytes in reverse order (padded with zeros). -/
def sha (data : Bytes) : Bytes :=
  (if data.getLastD 0 < 3 then 255 else 0) :: 0 ::
    (data.reverse ++ List.replicate 30 0).take 30

/-- An integer as one natural number: even for `n`, odd for `-(n+1)`. -/
def encInt : Int → Nat
  | .ofNat n => 2 * n
  | .negSucc n => 2 * n + 1

/-- Inverse of `encInt`. -/
def decInt (n : Nat) : Int :=
  if n % 2 = 0 then .ofNat (n / 2) else .negSucc (n / 2)

/-- A byte string as its length followed by its bytes. -/
def encBytes (bs : Bytes) : List Nat := bs.length :: bs

/-- Reads a length and that many bytes. -/
def decBytes : List Nat → Option (Bytes × List Nat)
  | [] => none
  | n :: rest => if n ≤ rest.length then some (rest.take n, rest.drop n) else none

/-- A transaction input as a stream of numbers. -/
def encInput (i : TXInput) : List Nat :=
  encBytes i.Txid ++ (encInt i.Vout :: (encBytes i.Signature ++ encBytes i.PubKey))

/-- Reads a transaction input. -/
def decInput (s : List Nat) : Option (TXInput × List Nat) :=
  match decBytes s with
  | none => none
  | some (txid, s) =>
    match s with
    | [] => none
    | vout :: s =>
      match decBytes s with
      | none => none
      | some (sig, s) =>
        match decBytes s with
        | none => none
        | some (key, s) => some (⟨txid, decInt vout, sig, key⟩, s)

/-- A transaction output as a stream of numbers. -/
def encOutput (o : TXOutput) : List Nat := encInt o.Value :: encBytes o.PubKeyHash

/-- Reads a transaction output. -/
def decOutput : List Nat → Option (TXOutput × List Nat)
  | [] => none
  | value :: s =>
    match decBytes s with
    | none => none
    | some (pkh, s) => some (⟨decInt value, pkh⟩, s)

/-- The streams of the items of a list, one after the other. -/
def encMany {α : Type} (enc : α → List Nat) : List α → List Nat
  | [] => []
  | x :: xs => enc x ++ encMany enc xs

/-- Reads `count` items. -/
def decMany {α : Type} (dec : List Nat → Option (α × List Nat)) :
    Nat → List Nat → Option (List α × List Nat)
  | 0, s => some ([], s)
  | count + 1, s =>
    match dec s with
    | none => none
    | some (x, s) =>
      match decMany dec count s with
      | none => none
      | some (xs, s) => some (x :: xs, s)

/-- A transaction as a stream of numbers. -/
def encTx (tx : Transaction) : List Nat :=
  encBytes tx.ID ++ (tx.Vin.length :: (encMany encInput tx.Vin
    ++ (tx.Vout.length :: encMany encOutput tx.Vout)))

/-- Reads a transaction. -/
def decTx (s : List Nat) : Option (Transaction × List Nat) :=
  match decBytes s with
  | none => none
  | some (id, s) =>
    match s with
    | [] => none
    | nin :: s =>
      match decMany decInput nin s with
      | none => none
      | some (vin, s) =>
        match s with
        | [] => none
        | nout :: s =>
          match decMany decOutput nout s with
          | none => none
          | some (vout, s) => some (⟨id, vin, vout⟩, s)

/-- A block as a stream of numbers, every field in declaration order. -/
def encBlock (b : Block) : Bytes :=
  encInt b.Timestamp :: b.Transactions.length :: (encMany encTx b.Transactions
    ++ (encBytes b.PrevBlockHash ++ (encBytes b.Hash ++ [encInt b.Nonce, encInt b.Height])))

/-- Reads a block; anything but a whole block is a decoding error. -/
def decBlock : Bytes → Option Block
  | ts :: ntx :: s =>
    match decMany decTx ntx s with
    | none => none
    | some (txs, s) =>
      match decBytes s with
      | none => none
      | some (prev, s) =>
        match decBytes s with
        | none => none
        | some (hash, s) =>
          match s with
          | [nonce, height] => some ⟨decInt ts, txs, prev, hash, decInt nonce, decInt height⟩
          | _ => none
  | _ => none

/-- The concrete environment: the toy hash, a transaction serialised as its
number stream, every signature accepted, blocks stored as number streams. -/
def env : Env where
  sha256 := sha
  sha256_length := fun data => by simp [sha]
  txSerialize := encTx
  txVerify := fun _ _ => some true
  gobEncode := encBlock
  gobDecode := decBlock

/-- A coinbase transaction paying 10 to the key hash `[7]`. -/
def coinbase : Transaction :=
  ⟨[1], [⟨[], -1, [], [84]⟩], [⟨10, [7]⟩]⟩

/-- The hash the toy search finds for the genesis header at time 0. -/
def genesisHash : Bytes :=
  [0, 0, 3, 0, 0, 0, 0, 0, 0, 0, 16, 0, 0, 0, 0, 0, 0, 0, 0, 0, 0, 0, 0, 0, 0, 0, 7, 1, 20,
   1, 84, 1]

/-- The genesis block `NewGenesisBlock` builds from `coinbase` at time 0. -/
def genesis : Block := ⟨0, [coinbase], [], genesisHash, 3, 0⟩

/-- The store `CreateBlockchain` leaves: the genesis block and the tip key. -/
def chain0 : Blockchain :=
  ⟨genesisHash, ⟨[(tipKey, genesisHash), (genesisHash, encBlock genesis)]⟩⟩

/-- A block that claims height 5 directly on top of the genesis block. -/
def tallBlock : Block := ⟨0, [coinbase], genesisHash, [9], 0, 5⟩

/-- The store after `AddBlock(tallBlock)` on `chain0`. -/
def tallChain : Blockchain :=
  ⟨[9], ⟨[(tipKey, [9]), ([9], encBlock tallBlock), (genesisHash, encBlock genesis)]⟩⟩

/-- A block whose height is the largest Go `int`. -/
def topBlock : Block := ⟨0, [coinbase], [], [9], 0, 9223372036854775807⟩

/-- The store after `AddBlock(topBlock)` on `chain0`. -/
def topChain : Blockchain :=
  ⟨[9], ⟨[(tipKey, [9]), ([9], encBlock topBlock), (genesisHash, encBlock genesis)]⟩⟩

/-- The hash the toy search finds for a header at time 1. -/
def minedHash : Bytes :=
  [0, 0, 3, 0, 0, 0, 0, 0, 0, 0, 16, 0, 0, 0, 0, 0, 0, 0, 1, 0, 0, 0, 0, 0, 0, 0, 7, 1, 20,
   1, 84, 1]

/-- The block `MineBlock` returns on `topChain` at time 1: its height wrapped around. -/
def wrappedBlock : Block := ⟨1, [coinbase], [9], minedHash, 3, -9223372036854775808⟩

/-- The store after that `MineBlock` on `topChain`. -/
def wrappedChain : Blockchain :=
  ⟨minedHash, ⟨[(tipKey, minedHash), (minedHash, encBlock wrappedBlock),
    ([9], encBlock topBlock), (genesisHash, encBlock genesis)]⟩⟩

/-- The block `MineBlock` returns on `chain0` at time 1. -/
def minedBlock : Block := ⟨1, [coinbase], genesisHash, minedHash, 3, 1⟩

/-- The store after that `MineBlock` on `chain0`. -/
def minedChain : Blockchain :=
  ⟨minedHash, ⟨[(tipKey, minedHash), (minedHash, encBlock minedBlock),
    (genesisHash, encBlock genesis)]⟩⟩

/-- A block of height 1 on top of the genesis block, with the hash `[9]`. -/
def sideBlock : Block := ⟨0, [coinbase], genesisHash, [9], 0, 1⟩

/-- The store after `AddBlock(sideBlock)` on `minedChain`: the tip stays. -/
def sideChain : Blockchain :=
  ⟨minedHash, ⟨[([9], encBlock sideBlock), (tipKey, minedHash),
    (minedHash, encBlock minedBlock), (genesisHash, encBlock genesis)]⟩⟩

/-- The toy environment with a verifier that rejects every signature. -/
def strictEnv : Env where
  sha256 := sha
  sha256_length := fun data => by simp [sha]
  txSerialize := encTx
  txVerify := fun _ _ => some false
  gobEncode := encBlock
  gobDecode := decBlock

/-- A transaction that spends output 0 of `coinbase`: 4 to the key hash `[8]`
and 6 back to `[7]`. -/
def spend : Transaction :=
  ⟨[2], [⟨[1], 0, [5], [84]⟩], [⟨4, [8]⟩, ⟨6, [7]⟩]⟩

/-- The hash the toy search finds at time 1 for a header whose last transaction
is `spend`. -/
def spendHash : Bytes :=
  [0, 0, 3, 0, 0, 0, 0, 0, 0, 0, 16, 0, 0, 0, 0, 0, 0, 0, 1, 0, 0, 0, 0, 0, 0, 0, 7, 1, 12,
   8, 1, 8]

/-- The block `MineBlock` returns on `chain0` at time 1 for the batch `[spend]`. -/
def spendBlock : Block := ⟨1, [spend], genesisHash, spendHash, 3, 1⟩

/-- The store after that `MineBlock`. -/
def spendChain : Blockchain :=
  ⟨spendHash, ⟨[(tipKey, spendHash), (spendHash, encBlock spendBlock),
    (genesisHash, encBlock genesis)]⟩⟩

/-- The block `MineBlock` returns on `chain0` at time 1 for the batch
`[coinbase, spend]`, in which the genesis coinbase transaction comes again. -/
def replayBlock : Block := ⟨1, [coinbase, spend], genesisHash, spendHash, 3, 1⟩

/-- The store after that `MineBlock`. -/
def replayChain : Blockchain :=
  ⟨spendHash, ⟨[(tipKey, spendHash), (spendHash, encBlock replayBlock),
    (genesisHash, encBlock genesis)]⟩⟩

end Toy

/-! ## The toy block encoding is lossless -/

/-- `decInt` inverts `encInt`. -/
theorem Toy.decInt_encInt (i : Int) : Toy.decInt (Toy.encInt i) = i := by
  cases i with
  | ofNat n =>
    have h : 2 * n % 2 = 0 := by omega
    have h2 : 2 * n / 2 = n := by omega
    simp [Toy.encInt, Toy.decInt, h, h2]
  | negSucc n =>
    have h : (2 * n + 1) % 2 ≠ 0 := by omega
    have h2 : (2 * n + 1) / 2 = n := by omega
    simp [Toy.encInt, Toy.decInt, h2]
    omega

/-- `decBytes` reads back what `encBytes` wrote and leaves the rest. -/
theorem Toy.decBytes_encBytes (bs : Bytes) (rest : List Nat) :
    Toy.decBytes (Toy.encBytes bs ++ rest) = some (bs, rest) := by
  simp [Toy.encBytes, Toy.decBytes]

/-- `decInput` reads back what `encInput` wrote. -/
theorem Toy.decInput_encInput (i : TXInput) (rest : List Nat) :
    Toy.decInput (Toy.encInput i ++ rest) = some (i, rest) := by
  unfold Toy.decInput Toy.encInput
  rw [List.append_assoc, Toy.decBytes_encBytes]
  simp only [List.cons_append, List.append_assoc]
  rw [Toy.decBytes_encBytes]
  simp only
  rw [Toy.decBytes_encBytes, Toy.decInt_encInt]

/-- `decOutput` reads back what `encOutput` wrote. -/
theorem Toy.decOutput_encOutput (o : TXOutput) (rest : List Nat) :
    Toy.decOutput (Toy.encOutput o ++ rest) = some (o, rest) := by
  unfold Toy.decOutput Toy.encOutput
  simp only [List.cons_append]
  rw [Toy.decBytes_encBytes, Toy.decInt_encInt]

/-- `decMany` reads back a list written item by item. -/
theorem Toy.decMany_encMany {α : Type} (enc : α → List Nat)
    (dec : List Nat → Option (α × List Nat))
    (h : ∀ x rest, dec (enc x ++ rest) = some (x, rest)) :
    ∀ (xs : List α) (rest : List Nat),
      Toy.decMany dec xs.length (Toy.encMany enc xs ++ rest) = some (xs, rest)
  | [], rest => rfl
  | x :: xs, rest => by
    simp only [Toy.encMany, List.length_cons, Toy.decMany, List.append_assoc, h,
      Toy.decMany_encMany enc dec h xs rest]

/-- `decTx` reads back what `encTx` wrote. -/
theorem Toy.decTx_encTx (tx : Transaction) (rest : List Nat) :
    Toy.decTx (Toy.encTx tx ++ rest) = some (tx, rest) := by
  unfold Toy.decTx Toy.encTx
  rw [List.append_assoc, Toy.decBytes_encBytes]
  simp only [List.cons_append, List.append_assoc]
  rw [Toy.decMany_encMany _ _ Toy.decInput_encInput]
  simp only [List.cons_append]
  rw [Toy.decMany_encMany _ _ Toy.decOutput_encOutput]

/-- The toy decoding of an encoded block is the block. -/
theorem Toy.decBlock_encBlock (b : Block) : Toy.decBlock (Toy.encBlock b) = some b := by
  unfold Toy.decBlock Toy.encBlock
  simp only [List.append_assoc]
  rw [Toy.decMany_encMany _ _ Toy.decTx_encTx]
  simp only
  rw [Toy.decBytes_encBytes]
  simp only
  rw [Toy.decBytes_encBytes]
  simp only [Toy.decInt_encInt]

/-! ## Lemmas on the proof of work -/

/-- The header preimage is the Merkle root wrapped between the other fields. -/
theorem prepareData_eq (env : Env) (pow : ProofOfWork) (nonce : Int) :
    prepareData env pow nonce = (HashTransactions env pow.block).map (fun root =>
      pow.block.PrevBlockHash ++ root ++ IntToHex pow.block.Timestamp
        ++ IntToHex (targetBits : Int) ++ IntToHex nonce) := by
  unfold prepareData
  cases HashTransactions env pow.block <;> rfl

/-- Whether the preimage can be built does not depend on the nonce. -/
theorem prepareData_isSome (env : Env) (pow : ProofOfWork) (n m : Int) (data : Bytes)
    (h : prepareData env pow n = some data) : ∃ data2, prepareData env pow m = some data2 := by
  rw [prepareData_eq] at h ⊢
  cases hr : HashTransactions env pow.block with
  | none => simp [hr] at h
  | some root => exact ⟨_, rfl⟩

/-- What the loop of `Run` returns below `maxNonce` is the first solving nonce
at or after the one it started from. -/
theorem Run.loop_sound (env : Env) (pow : ProofOfWork) :
    ∀ (left nonce : Nat) (hash : Bytes) (n : Nat) (h : Bytes),
      maxNonce ≤ left + nonce → Run.loop env pow left nonce hash = some (n, h) →
      n < maxNonce →
      nonce ≤ n ∧
      (∃ data, prepareData env pow (n : Int) = some data ∧ h = env.sha256 data ∧
        hashInt (env.sha256 data) < pow.target) ∧
      ∀ m, nonce ≤ m → m < n → ∃ data, prepareData env pow (m : Int) = some data ∧
        ¬ hashInt (env.sha256 data) < pow.target := by
  intro left
  induction left with
  | zero =>
    intro nonce hash n h hle hrun hn
    simp only [Run.loop, Option.some.injEq, Prod.mk.injEq] at hrun
    omega
  | succ left ih =>
    intro nonce hash n h hle hrun hn
    unfold Run.loop at hrun
    by_cases hlt : nonce < maxNonce
    · rw [if_pos hlt] at hrun
      cases hd : prepareData env pow (nonce : Int) with
      | none => simp [hd] at hrun
      | some data =>
        simp only [hd] at hrun
        by_cases hbelow : hashInt (env.sha256 data) < pow.target
        · rw [if_pos hbelow] at hrun
          simp only [Option.some.injEq, Prod.mk.injEq] at hrun
          obtain ⟨rfl, rfl⟩ := hrun
          exact ⟨le_refl _, ⟨data, hd, rfl, hbelow⟩, fun m h1 h2 => absurd h1 (by omega)⟩
        · rw [if_neg hbelow] at hrun
          obtain ⟨h1, h2, h3⟩ := ih (nonce + 1) _ n h (by omega) hrun hn
          refine ⟨by omega, h2, fun m hm1 hm2 => ?_⟩
          by_cases hmn : m = nonce
          · subst hmn
            exact ⟨data, hd, hbelow⟩
          · exact h3 m (by omega) hm2
    · rw [if_neg hlt] at hrun
      simp only [Option.some.injEq, Prod.mk.injEq] at hrun
      omega

/-- When some nonce within the bound solves the puzzle, the loop of `Run`
returns a nonce no larger than it. -/
theorem Run.loop_finds (env : Env) (pow : ProofOfWork) :
    ∀ (left nonce : Nat) (hash : Bytes) (n : Nat),
      nonce ≤ n → n < nonce + left → n < maxNonce →
      (∃ data, prepareData env pow (n : Int) = some data ∧
        hashInt (env.sha256 data) < pow.target) →
      ∃ n2 h, Run.loop env pow left nonce hash = some (n2, h) ∧ n2 ≤ n := by
  intro left
  induction left with
  | zero => intro nonce hash n h1 h2; omega
  | succ left ih =>
    intro nonce hash n h1 h2 h3 hsol
    obtain ⟨dataN, hdN, hbN⟩ := hsol
    obtain ⟨data, hd⟩ := prepareData_isSome env pow n nonce dataN hdN
    unfold Run.loop
    rw [if_pos (by omega : nonce < maxNonce)]
    simp only [hd]
    by_cases hbelow : hashInt (env.sha256 data) < pow.target
    · rw [if_pos hbelow]
      exact ⟨nonce, _, rfl, h1⟩
    · rw [if_neg hbelow]
      have hne : nonce ≠ n := by
        rintro rfl
        rw [hd] at hdN
        cases hdN
        exact hbelow hbN
      exact ih (nonce + 1) _ n (by omega) (by omega) h3 ⟨dataN, hdN, hbN⟩

/-- When no nonce from `nonce` up to the bound solves the puzzle, the loop of
`Run` ends at `maxNonce` with the last hash it computed. -/
theorem Run.loop_exhaust (env : Env) (pow : ProofOfWork) :
    ∀ (left nonce : Nat) (hash : Bytes),
      left + nonce = maxNonce →
      (∀ m, nonce ≤ m → m < maxNonce → ∃ data, prepareData env pow (m : Int) = some data ∧
        ¬ hashInt (env.sha256 data) < pow.target) →
      ∃ h, Run.loop env pow left nonce hash = some (maxNonce, h) ∧
        (left = 0 → h = hash) ∧
        (0 < left → ∃ data, prepareData env pow ((maxNonce - 1 : Nat) : Int) = some data ∧
          h = env.sha256 data) := by
  intro left
  induction left with
  | zero =>
    intro nonce hash hsum _
    refine ⟨hash, ?_, fun _ => rfl, fun h => absurd h (by omega)⟩
    simp only [Nat.zero_add] at hsum
    simp [Run.loop, hsum]
  | succ left ih =>
    intro nonce hash hsum hnone
    obtain ⟨data, hd, hnb⟩ := hnone nonce (le_refl _) (by omega)
    obtain ⟨h, hrun, h0, h1⟩ := ih (nonce + 1) (env.sha256 data) (by omega)
      (fun m hm1 hm2 => hnone m (by omega) hm2)
    refine ⟨h, ?_, fun h => absurd h (by omega), fun _ => ?_⟩
    · unfold Run.loop
      rw [if_pos (by omega : nonce < maxNonce)]
      simp only [hd]
      rw [if_neg hnb]
      exact hrun
    · by_cases hl : left = 0
      · have hn : nonce = maxNonce - 1 := by omega
        exact ⟨data, hn ▸ hd, h0 hl⟩
      · exact h1 (by omega)

/-- The counter `left` of the loop of `Run` only has to cover the distance to
`maxNonce`: any two counters that do give the same result. -/
theorem Run.loop_counter (env : Env) (pow : ProofOfWork) :
    ∀ (left1 left2 nonce : Nat) (hash : Bytes),
      maxNonce ≤ left1 + nonce → maxNonce ≤ left2 + nonce →
      Run.loop env pow left1 nonce hash = Run.loop env pow left2 nonce hash := by
  intro left1
  induction left1 with
  | zero =>
    intro left2 nonce hash h1 _
    have hge : ¬ nonce < maxNonce := by omega
    cases left2 with
    | zero => rfl
    | succ left2 => simp [Run.loop, hge]
  | succ left1 ih =>
    intro left2 nonce hash h1 h2
    by_cases hlt : nonce < maxNonce
    · obtain ⟨left2, rfl⟩ : ∃ l, left2 = l + 1 := ⟨left2 - 1, by omega⟩
      unfold Run.loop
      rw [if_pos hlt, if_pos hlt]
      cases prepareData env pow (nonce : Int) with
      | none => rfl
      | some data =>
        simp only
        split
        · rfl
        · exact ih left2 (nonce + 1) _ (by omega) (by omega)
    · cases left2 with
      | zero => simp [Run.loop, hlt]
      | succ left2 => simp [Run.loop, hlt]

/-- The header preimage does not read the `Hash`, `Nonce` and `Height` fields. -/
theorem prepareData_congr (env : Env) (b1 b2 : Block) (nonce : Int)
    (ht : b1.Timestamp = b2.Timestamp) (hx : b1.Transactions = b2.Transactions)
    (hp : b1.PrevBlockHash = b2.PrevBlockHash) :
    prepareData env (NewProofOfWork b1) nonce = prepareData env (NewProofOfWork b2) nonce := by
  simp only [prepareData, HashTransactions, NewProofOfWork, ht, hx, hp]

/-- `NewBlock` stores what `Run` returned. -/
theorem NewBlock_of_loop (env : Env) (now : Int) (transactions : List Transaction)
    (prevBlockHash : Bytes) (height : Int) (n : Nat) (h : Bytes)
    (hrun : Run.loop env (NewProofOfWork ⟨now, transactions, prevBlockHash, [], 0, height⟩)
      maxNonce 0 (List.replicate 32 0) = some (n, h)) :
    NewBlock env now transactions prevBlockHash height =
      some ⟨now, transactions, prevBlockHash, h, (n : Int), height⟩ := by
  simp only [NewBlock, Run, hrun]

/-- Every block `NewBlock` returns comes from a result of `Run`. -/
theorem NewBlock_inv (env : Env) (now : Int) (transactions : List Transaction)
    (prevBlockHash : Bytes) (height : Int) (b : Block)
    (hnew : NewBlock env now transactions prevBlockHash height = some b) :
    ∃ (n : Nat) (h : Bytes),
      Run.loop env (NewProofOfWork ⟨now, transactions, prevBlockHash, [], 0, height⟩)
        maxNonce 0 (List.replicate 32 0) = some (n, h) ∧
      b = ⟨now, transactions, prevBlockHash, h, (n : Int), height⟩ := by
  cases hrun : Run.loop env (NewProofOfWork ⟨now, transactions, prevBlockHash, [], 0, height⟩)
      maxNonce 0 (List.replicate 32 0) with
  | none =>
    rw [show NewBlock env now transactions prevBlockHash height = none from by
      simp only [NewBlock, Run, hrun]] at hnew
    cases hnew
  | some r =>
    obtain ⟨n, h⟩ := r
    rw [NewBlock_of_loop env now transactions prevBlockHash height n h hrun] at hnew
    exact ⟨n, h, rfl, (Option.some.inj hnew).symm⟩

/-- The bound of the nonce search is positive. -/
theorem maxNonce_pos : 0 < maxNonce := by
  unfold maxNonce
  omega

/-! ## Lemmas on the store operations -/

/-- Looking a key up after the pairs of a key were removed. -/
theorem Bucket.lookup_remove (key k : Bytes) :
    ∀ l : List (Bytes × Bytes),
      Bucket.lookup k (Bucket.remove key l) = if k = key then none else Bucket.lookup k l
  | [] => by simp [Bucket.lookup, Bucket.remove]
  | (k1, v1) :: rest => by
    have ih := Bucket.lookup_remove key k rest
    by_cases h1 : k1 = key
    · by_cases h2 : k = key
      · subst h2
        simp only [if_true] at ih
        simp [Bucket.remove, h1, ih]
      · have h3 : ¬ key = k := fun h => h2 h.symm
        simp [Bucket.remove, Bucket.lookup, h1, ih, h2, h3]
    · by_cases h2 : k = key
      · subst h2
        simp only [if_true] at ih
        simp [Bucket.remove, Bucket.lookup, h1, ih]
      · simp [Bucket.remove, Bucket.lookup, h1, ih, h2]

/-- After a successful `Put` the key is not empty and `Get` sees the new value
under it and the old values elsewhere. -/
theorem Bucket.Get_Put (b b2 : Bucket) (key value : Bytes)
    (h : b.Put key value = some b2) :
    key ≠ [] ∧ ∀ k, b2.Get k = if k = key then some value else b.Get k := by
  unfold Bucket.Put at h
  split at h
  · cases h
  · rename_i hc
    cases h
    refine ⟨fun he => hc (Or.inl (by simp [he])), fun k => ?_⟩
    by_cases hk : k = key
    · subst hk
      simp [Bucket.Get, Bucket.lookup]
    · have hk2 : ¬ key = k := fun h => hk h.symm
      simp [Bucket.Get, Bucket.lookup, Bucket.lookup_remove, hk, hk2]

/-- The hash the loop of `Run` returns has 32 bytes when the initial one has. -/
theorem Run.loop_hash_length (env : Env) (pow : ProofOfWork) :
    ∀ (left nonce : Nat) (hash : Bytes) (n : Nat) (h : Bytes), hash.length = 32 →
      Run.loop env pow left nonce hash = some (n, h) → h.length = 32 := by
  intro left
  induction left with
  | zero =>
    intro nonce hash n h hlen hrun
    simp only [Run.loop, Option.some.injEq, Prod.mk.injEq] at hrun
    rw [← hrun.2]
    exact hlen
  | succ left ih =>
    intro nonce hash n h hlen hrun
    unfold Run.loop at hrun
    by_cases hlt : nonce < maxNonce
    · rw [if_pos hlt] at hrun
      cases hd : prepareData env pow (nonce : Int) with
      | none => simp [hd] at hrun
      | some data =>
        simp only [hd] at hrun
        by_cases hbelow : hashInt (env.sha256 data) < pow.target
        · rw [if_pos hbelow] at hrun
          simp only [Option.some.injEq, Prod.mk.injEq] at hrun
          rw [← hrun.2]
          exact env.sha256_length data
        · rw [if_neg hbelow] at hrun
          exact ih (nonce + 1) _ n h (env.sha256_length data) hrun
    · rw [if_neg hlt] at hrun
      simp only [Option.some.injEq, Prod.mk.injEq] at hrun
      rw [← hrun.2]
      exact hlen

/-- The fields of a block `NewBlock` returned: the arguments, and a 32-byte hash. -/
theorem NewBlock_fields (env : Env) (now : Int) (transactions : List Transaction)
    (prevBlockHash : Bytes) (height : Int) (b : Block)
    (hnew : NewBlock env now transactions prevBlockHash height = some b) :
    b.Timestamp = now ∧ b.Transactions = transactions ∧ b.PrevBlockHash = prevBlockHash ∧
      b.Height = height ∧ b.Hash.length = 32 := by
  obtain ⟨n, h, hrun, rfl⟩ := NewBlock_inv env now transactions prevBlockHash height b hnew
  exact ⟨rfl, rfl, rfl, rfl,
    Run.loop_hash_length env _ maxNonce 0 _ n h (List.length_replicate 32 0) hrun⟩

/-- A 32-byte hash is neither empty nor the reserved tip key. -/
theorem hash32_ne (h : Bytes) (hlen : h.length = 32) : h ≠ [] ∧ h ≠ tipKey := by
  constructor
  · rintro rfl
    simp at hlen
  · rintro rfl
    simp [tipKey] at hlen

/-- What `CreateBlockchain` leaves behind: a genesis block under its hash and
the tip key naming it. -/
theorem CreateBlockchain_spec (env : Env) (dbExists : Bool) (cbtx : Transaction) (now : Int)
    (bc : Blockchain) (h : CreateBlockchain env dbExists cbtx now = some bc) :
    ∃ genesis : Block, genesis.PrevBlockHash = [] ∧ genesis.Height = 0 ∧
      genesis.Hash.length = 32 ∧ bc.tip = genesis.Hash ∧
      ∀ k, bc.db.Get k = if k = tipKey then some genesis.Hash
        else if k = genesis.Hash then some (env.gobEncode genesis) else none := by
  unfold CreateBlockchain at h
  cases dbExists with
  | true => simp at h
  | false =>
    simp only [Bool.false_eq_true, if_false] at h
    cases hg : NewGenesisBlock env now cbtx with
    | none => simp [hg] at h
    | some genesis =>
      simp only [hg] at h
      cases hp1 : Bucket.Put ⟨[]⟩ genesis.Hash (Serialize env genesis) with
      | none => simp [hp1] at h
      | some b1 =>
        simp only [hp1] at h
        cases hp2 : b1.Put tipKey genesis.Hash with
        | none => simp [hp2] at h
        | some b2 =>
          simp only [hp2, Option.some.injEq] at h
          subst h
          obtain ⟨-, -, hprev, hheight, hlen⟩ := NewBlock_fields env now [cbtx] [] 0 genesis hg
          obtain ⟨-, hget1⟩ := Bucket.Get_Put _ _ _ _ hp1
          obtain ⟨-, hget2⟩ := Bucket.Get_Put _ _ _ _ hp2
          refine ⟨genesis, hprev, hheight, hlen, rfl, fun k => ?_⟩
          show b2.Get k = _
          rw [hget2, hget1]
          rfl

/-- What a returning `AddBlock` did, in a store whose tip names a stored block:
nothing when the hash was present; otherwise it stored the block and moved the
tip exactly when the block is higher than the tip block. -/
theorem AddBlock_spec (env : Env) (bc bc2 : Blockchain) (block tipBlock : Block)
    (htip : bc.db.Get tipKey = some bc.tip)
    (hst : StoredBlock env bc.db bc.tip tipBlock)
    (hadd : AddBlock env bc block = some bc2) :
    (bc.db.Get block.Hash ≠ none ∧ bc2 = bc) ∨
    (bc.db.Get block.Hash = none ∧ block.Hash ≠ [] ∧ block.Hash ≠ tipKey ∧
      ((block.Height ≤ tipBlock.Height ∧ bc2.tip = bc.tip) ∨
       (tipBlock.Height < block.Height ∧ bc2.tip = block.Hash)) ∧
      ∀ k, bc2.db.Get k = if k = tipKey then some bc2.tip
        else if k = block.Hash then some (env.gobEncode block) else bc.db.Get k) := by
  unfold AddBlock at hadd
  cases hget : bc.db.Get block.Hash with
  | some v =>
    simp only [hget, Option.some.injEq] at hadd
    exact Or.inl ⟨by simp, hadd.symm⟩
  | none =>
    right
    simp only [hget] at hadd
    cases hp1 : bc.db.Put block.Hash (Serialize env block) with
    | none => simp [hp1] at hadd
    | some b1 =>
      simp only [hp1] at hadd
      obtain ⟨hne, hget1⟩ := Bucket.Get_Put _ _ _ _ hp1
      have hnk : block.Hash ≠ tipKey := by
        intro he
        rw [he, htip] at hget
        cases hget
      have hnk2 : ¬ tipKey = block.Hash := fun h => hnk h.symm
      obtain ⟨-, v, hv, hdec⟩ := hst
      have hnt : ¬ bc.tip = block.Hash := by
        intro he
        rw [he, hget] at hv
        cases hv
      have h1 : b1.Get tipKey = some bc.tip := by rw [hget1, if_neg hnk2, htip]
      have h2 : DeserializeBlock env (b1.Get bc.tip) = some tipBlock := by
        rw [hget1, if_neg hnt, hv]
        exact hdec
      simp only [h1, h2] at hadd
      refine ⟨rfl, hne, hnk, ?_⟩
      by_cases hgt : block.Height > tipBlock.Height
      · rw [if_pos hgt] at hadd
        cases hp2 : b1.Put tipKey block.Hash with
        | none => simp [hp2] at hadd
        | some b2 =>
          simp only [hp2, Option.some.injEq] at hadd
          subst hadd
          obtain ⟨-, hget2⟩ := Bucket.Get_Put _ _ _ _ hp2
          refine ⟨Or.inr ⟨hgt, rfl⟩, fun k => ?_⟩
          show b2.Get k = _
          rw [hget2, hget1]
          rfl
      · rw [if_neg hgt] at hadd
        simp only [Option.some.injEq] at hadd
        subst hadd
        refine ⟨Or.inl ⟨by omega, rfl⟩, fun k => ?_⟩
        show b1.Get k = if k = tipKey then some bc.tip
          else if k = block.Hash then some (env.gobEncode block) else bc.db.Get k
        rw [hget1]
        by_cases hk : k = tipKey
        · subst hk
          rw [if_neg hnk2, if_pos rfl, htip]
        · rw [if_neg hk]
          rfl

/-- What a returning `MineBlock` did, in a store whose tip names a stored block:
it stored a new block on top of the tip block and moved the tip to it. -/
theorem MineBlock_spec (env : Env) (fuel : Nat) (bc bc2 : Blockchain)
    (transactions : List Transaction) (now : Int) (newBlock tipBlock : Block)
    (htip : bc.db.Get tipKey = some bc.tip)
    (hst : StoredBlock env bc.db bc.tip tipBlock)
    (hmine : MineBlock env fuel bc transactions now = .ok (newBlock, bc2)) :
    newBlock.PrevBlockHash = bc.tip ∧ newBlock.Height = addInt tipBlock.Height 1 ∧
      newBlock.Transactions = transactions ∧ newBlock.Hash.length = 32 ∧
      bc2.tip = newBlock.Hash ∧
      ∀ k, bc2.db.Get k = if k = tipKey then some newBlock.Hash
        else if k = newBlock.Hash then some (env.gobEncode newBlock) else bc.db.Get k := by
  unfold MineBlock at hmine
  obtain ⟨-, v, hv, hdec⟩ := hst
  have h2 : DeserializeBlock env (bc.db.Get bc.tip) = some tipBlock := by
    rw [hv]
    exact hdec
  cases hver : MineBlock.verifyAll env fuel bc transactions with
  | unfinished => simp [hver] at hmine
  | panic => simp [hver] at hmine
  | ok u =>
    simp only [hver, htip, h2] at hmine
    cases hnew : NewBlock env now transactions bc.tip (addInt tipBlock.Height 1) with
    | none => simp [hnew] at hmine
    | some nb =>
      simp only [hnew] at hmine
      cases hp1 : bc.db.Put nb.Hash (Serialize env nb) with
      | none => simp [hp1] at hmine
      | some b1 =>
        simp only [hp1] at hmine
        cases hp2 : b1.Put tipKey nb.Hash with
        | none => simp [hp2] at hmine
        | some b2 =>
          simp only [hp2, Outcome.ok.injEq, Prod.mk.injEq] at hmine
          obtain ⟨rfl, rfl⟩ := hmine
          obtain ⟨-, htx, hprev, hheight, hlen⟩ := NewBlock_fields env now transactions bc.tip
            (addInt tipBlock.Height 1) nb hnew
          obtain ⟨-, hget1⟩ := Bucket.Get_Put _ _ _ _ hp1
          obtain ⟨-, hget2⟩ := Bucket.Get_Put _ _ _ _ hp2
          refine ⟨hprev, hheight, htx, hlen, rfl, fun k => ?_⟩
          show b2.Get k = _
          rw [hget2, hget1]
          rfl

/-- At most one block is stored under a hash. -/
theorem StoredBlock_unique (env : Env) (db : Bucket) (h : Bytes) (b1 b2 : Block)
    (h1 : StoredBlock env db h b1) (h2 : StoredBlock env db h b2) : b1 = b2 := by
  obtain ⟨-, v1, hv1, hd1⟩ := h1
  obtain ⟨-, v2, hv2, hd2⟩ := h2
  rw [hv1] at hv2
  cases hv2
  rw [hd1] at hd2
  exact Option.some.inj hd2

/-- The height `GetBestHeight` returns is that of the stored tip block. -/
theorem GetBestHeight_of_stored (env : Env) (bc : Blockchain) (tipBlock : Block)
    (htip : bc.db.Get tipKey = some bc.tip)
    (hst : StoredBlock env bc.db bc.tip tipBlock) :
    GetBestHeight env bc = some tipBlock.Height := by
  obtain ⟨-, v, hv, hdec⟩ := hst
  simp only [GetBestHeight, htip, hv, DeserializeBlock, hdec]

/-- The stored blocks of a store that got one more block `nb` (and a tip key
value): `nb` under its hash, and the blocks stored before under other hashes. -/
theorem StoredBlock_extend (env : Env) (hgob : ∀ b, env.gobDecode (env.gobEncode b) = some b)
    (db db2 : Bucket) (nb : Block) (t : Bytes) (hne : nb.Hash ≠ tipKey)
    (hget : ∀ k, db2.Get k = if k = tipKey then some t
      else if k = nb.Hash then some (env.gobEncode nb) else db.Get k)
    (h : Bytes) (blk : Block) :
    StoredBlock env db2 h blk ↔
      (h = nb.Hash ∧ blk = nb) ∨ (h ≠ nb.Hash ∧ StoredBlock env db h blk) := by
  constructor
  · rintro ⟨hk, v, hv, hdec⟩
    rw [hget, if_neg hk] at hv
    by_cases hh : h = nb.Hash
    · rw [if_pos hh] at hv
      cases hv
      rw [hgob] at hdec
      exact Or.inl ⟨hh, (Option.some.inj hdec).symm⟩
    · rw [if_neg hh] at hv
      exact Or.inr ⟨hh, hk, v, hv, hdec⟩
  · rintro (⟨rfl, rfl⟩ | ⟨hh, hk, v, hv, hdec⟩)
    · exact ⟨hne, _, by rw [hget, if_neg hne, if_pos rfl], hgob _⟩
    · exact ⟨hk, v, by rw [hget, if_neg hk, if_neg hh, hv], hdec⟩

/-- Nothing is stored in the empty bucket. -/
theorem StoredBlock_empty (env : Env) (h : Bytes) (blk : Block) :
    ¬ StoredBlock env ⟨[]⟩ h blk := by
  rintro ⟨-, v, hv, -⟩
  cases hv

/-- The tip stays a highest stored block along `AddBlock` calls and along
`MineBlock` calls whose new height does not overflow. -/
theorem TipIsMax_of_reachable (env : Env)
    (hgob : ∀ b, env.gobDecode (env.gobEncode b) = some b)
    (bc : Blockchain) (hreach : Reachable env anyCall (heightFits env) bc) :
    TipIsMax env bc := by
  induction hreach with
  | create dbExists cbtx now bc hc =>
    obtain ⟨genesis, -, -, hlen, htip, hget⟩ := CreateBlockchain_spec env _ _ _ _ hc
    have hne := (hash32_ne _ hlen).2
    have hext := StoredBlock_extend env hgob ⟨[]⟩ bc.db genesis genesis.Hash hne hget
    refine ⟨by rw [hget, if_pos rfl, htip], genesis, ?_, fun h blk hs => ?_⟩
    · rw [htip]
      exact (hext _ _).2 (Or.inl ⟨rfl, rfl⟩)
    · rcases (hext h blk).1 hs with ⟨-, rfl⟩ | ⟨-, hs2⟩
      · exact le_refl _
      · exact absurd hs2 (StoredBlock_empty env h blk)
  | addBlock bc block bc2 _ _ hadd ih =>
    obtain ⟨htip, tipBlock, hst, hmax⟩ := ih
    rcases AddBlock_spec env bc bc2 block tipBlock htip hst hadd with
      ⟨-, rfl⟩ | ⟨hfresh, -, hne, hcase, hget⟩
    · exact ⟨htip, tipBlock, hst, hmax⟩
    · have hext := StoredBlock_extend env hgob bc.db bc2.db block bc2.tip hne hget
      have hnt : bc.tip ≠ block.Hash := by
        obtain ⟨-, v, hv, -⟩ := hst
        intro he
        rw [he, hfresh] at hv
        cases hv
      refine ⟨by rw [hget, if_pos rfl], ?_⟩
      rcases hcase with ⟨hle, ht⟩ | ⟨hlt, ht⟩
      · refine ⟨tipBlock, ?_, fun h blk hs => ?_⟩
        · rw [ht]
          exact (hext _ _).2 (Or.inr ⟨hnt, hst⟩)
        · rcases (hext h blk).1 hs with ⟨-, rfl⟩ | ⟨-, hs2⟩
          · exact hle
          · exact hmax h blk hs2
      · refine ⟨block, ?_, fun h blk hs => ?_⟩
        · rw [ht]
          exact (hext _ _).2 (Or.inl ⟨rfl, rfl⟩)
        · rcases (hext h blk).1 hs with ⟨-, rfl⟩ | ⟨-, hs2⟩
          · exact le_refl _
          · exact le_of_lt (lt_of_le_of_lt (hmax h blk hs2) hlt)
  | mineBlock bc fuel transactions now newBlock bc2 _ hfits hmine ih =>
    obtain ⟨htip, tipBlock, hst, hmax⟩ := ih
    obtain ⟨-, hheight, -, hlen, ht, hget⟩ :=
      MineBlock_spec env fuel bc bc2 transactions now newBlock tipBlock htip hst hmine
    have hne := (hash32_ne _ hlen).2
    have hext := StoredBlock_extend env hgob bc.db bc2.db newBlock newBlock.Hash hne hget
    have hh : newBlock.Height = tipBlock.Height + 1 := by
      rw [hheight]
      exact hfits _ (GetBestHeight_of_stored env bc tipBlock htip hst)
    refine ⟨by rw [hget, if_pos rfl, ht], newBlock, ?_, fun h blk hs => ?_⟩
    · rw [ht]
      exact (hext _ _).2 (Or.inl ⟨rfl, rfl⟩)
    · rcases (hext h blk).1 hs with ⟨-, rfl⟩ | ⟨-, hs2⟩
      · exact le_refl _
      · have := hmax h blk hs2
        omega


/-- A chain stays a chain in a store that keeps every stored block. -/
theorem ChainFrom_mono (env : Env) (db db2 : Bucket)
    (hsub : ∀ h blk, StoredBlock env db h blk → StoredBlock env db2 h blk) :
    ∀ (n : Nat) (h : Bytes), ChainFrom env db n h → ChainFrom env db2 n h
  | 0, h, ⟨blk, hs, hp, hh⟩ => ⟨blk, hsub h blk hs, hp, hh⟩
  | n + 1, h, ⟨blk, hs, hp, hh, hc⟩ =>
    ⟨blk, hsub h blk hs, hp, hh, ChainFrom_mono env db db2 hsub n _ hc⟩

/-- Walking a chain of `n + 1` blocks, the loop of `GetBlockHashes` returns
after exactly `n + 1` steps with `n + 1` more hashes: `n` steps are too few, and
with `n + 1` or more the result is the same list. -/
theorem GetBlockHashes.loop_chain (env : Env) (db : Bucket) :
    ∀ (n : Nat) (h : Bytes), ChainFrom env db n h → ∀ blocks : List Bytes,
      ∃ hashes, hashes.length = blocks.length + (n + 1) ∧
        (∀ fuel, n + 1 ≤ fuel → GetBlockHashes.loop env db fuel ⟨h⟩ blocks = .ok hashes) ∧
        (∀ fuel, fuel ≤ n → GetBlockHashes.loop env db fuel ⟨h⟩ blocks = .unfinished)
  | 0, h, ⟨blk, ⟨_, v, hv, hdec⟩, hp, _⟩ => by
    intro blocks
    refine ⟨blocks ++ [blk.Hash], by simp, fun fuel hfuel => ?_, fun fuel hfuel => ?_⟩
    · obtain ⟨fuel, rfl⟩ : ∃ f, fuel = f + 1 := ⟨fuel - 1, by omega⟩
      simp [GetBlockHashes.loop, BlockchainIterator.Next, DeserializeBlock, hv, hdec, hp]
    · obtain rfl : fuel = 0 := by omega
      rfl
  | n + 1, h, ⟨blk, ⟨_, v, hv, hdec⟩, hp, _, hc⟩ => by
    intro blocks
    obtain ⟨hashes, hlen, hok, hshort⟩ :=
      GetBlockHashes.loop_chain env db n _ hc (blocks ++ [blk.Hash])
    have hp2 : ¬ blk.PrevBlockHash.length = 0 := by
      intro h0
      exact hp (List.length_eq_zero.mp h0)
    have hstep : ∀ fuel, GetBlockHashes.loop env db (fuel + 1) ⟨h⟩ blocks =
        GetBlockHashes.loop env db fuel ⟨blk.PrevBlockHash⟩ (blocks ++ [blk.Hash]) := by
      intro fuel
      simp only [GetBlockHashes.loop, BlockchainIterator.Next, DeserializeBlock, hv, hdec]
      rw [if_neg hp2]
    refine ⟨hashes, by simp at hlen; omega, fun fuel hfuel => ?_, fun fuel hfuel => ?_⟩
    · obtain ⟨fuel, rfl⟩ : ∃ f, fuel = f + 1 := ⟨fuel - 1, by omega⟩
      rw [hstep]
      exact hok fuel (by omega)
    · cases fuel with
      | zero => rfl
      | succ fuel =>
        rw [hstep]
        exact hshort fuel (by omega)

/-- One more linked block keeps every stored block on a chain down to a block
with empty `prev_hash`. -/
theorem linked_extend (env : Env) (hgob : ∀ b, env.gobDecode (env.gobEncode b) = some b)
    (db db2 : Bucket) (nb : Block) (t : Bytes) (hne : nb.Hash ≠ tipKey) (hnem : nb.Hash ≠ [])
    (hfresh : db.Get nb.Hash = none)
    (hget : ∀ k, db2.Get k = if k = tipKey then some t
      else if k = nb.Hash then some (env.gobEncode nb) else db.Get k)
    (hempty : db.Get [] = none)
    (hall : ∀ h blk, StoredBlock env db h blk →
      ∃ n : Nat, blk.Height = (n : Int) ∧ ChainFrom env db n h)
    (hlink : (nb.PrevBlockHash = [] ∧ nb.Height = 0) ∨
      (nb.PrevBlockHash ≠ [] ∧ ∃ parent, StoredBlock env db nb.PrevBlockHash parent ∧
        nb.Height = parent.Height + 1)) :
    db2.Get [] = none ∧
    (∀ h blk, StoredBlock env db h blk → StoredBlock env db2 h blk) ∧
    StoredBlock env db2 nb.Hash nb ∧
    ∀ h blk, StoredBlock env db2 h blk →
      ∃ n : Nat, blk.Height = (n : Int) ∧ ChainFrom env db2 n h := by
  have hext := StoredBlock_extend env hgob db db2 nb t hne hget
  have hsub : ∀ h blk, StoredBlock env db h blk → StoredBlock env db2 h blk := by
    intro h blk hs
    refine (hext h blk).2 (Or.inr ⟨?_, hs⟩)
    obtain ⟨-, v, hv, -⟩ := hs
    intro he
    rw [he, hfresh] at hv
    cases hv
  have hnb : StoredBlock env db2 nb.Hash nb := (hext _ _).2 (Or.inl ⟨rfl, rfl⟩)
  refine ⟨?_, hsub, hnb, fun h blk hs => ?_⟩
  · rw [hget, if_neg (by simp [tipKey]), if_neg (fun he => hnem he.symm), hempty]
  · rcases (hext h blk).1 hs with ⟨rfl, rfl⟩ | ⟨-, hs2⟩
    · rcases hlink with ⟨hp, hh⟩ | ⟨hp, parent, hps, hh⟩
      · exact ⟨0, by simpa using hh, blk, hnb, hp, hh⟩
      · obtain ⟨m, hm, hc⟩ := hall _ _ hps
        refine ⟨m + 1, ?_, blk, hnb, hp, ?_, ChainFrom_mono env db db2 hsub m _ hc⟩
        · rw [hh, hm]
          push_cast
          rfl
        · rw [hh, hm]
          push_cast
          rfl
    · obtain ⟨n, hn, hc⟩ := hall h blk hs2
      exact ⟨n, hn, ChainFrom_mono env db db2 hsub n h hc⟩

/-- Along linked `AddBlock` calls and collision-free, overflow-free `MineBlock`
calls the tip names a stored block and every stored block is on a chain. -/
theorem linked_of_reachable (env : Env)
    (hgob : ∀ b, env.gobDecode (env.gobEncode b) = some b)
    (bc : Blockchain) (hreach : Reachable env (linkedBlock env) (freshBlock env) bc) :
    bc.db.Get tipKey = some bc.tip ∧ bc.db.Get [] = none ∧
    (∃ tipBlock, StoredBlock env bc.db bc.tip tipBlock) ∧
    ∀ h blk, StoredBlock env bc.db h blk →
      ∃ n : Nat, blk.Height = (n : Int) ∧ ChainFrom env bc.db n h := by
  induction hreach with
  | create dbExists cbtx now bc hc =>
    obtain ⟨genesis, hprev, hheight, hlen, htip, hget⟩ := CreateBlockchain_spec env _ _ _ _ hc
    obtain ⟨hnem, hne⟩ := hash32_ne _ hlen
    obtain ⟨h1, -, h3, h4⟩ := linked_extend env hgob ⟨[]⟩ bc.db genesis genesis.Hash hne hnem
      rfl hget rfl (fun h blk hs => absurd hs (StoredBlock_empty env h blk))
      (Or.inl ⟨hprev, hheight⟩)
    exact ⟨by rw [hget, if_pos rfl, htip], h1, ⟨genesis, htip ▸ h3⟩, h4⟩
  | addBlock bc block bc2 _ hlinked hadd ih =>
    obtain ⟨htip, hempty, ⟨tipBlock, hst⟩, hall⟩ := ih
    rcases AddBlock_spec env bc bc2 block tipBlock htip hst hadd with
      ⟨-, rfl⟩ | ⟨hfresh, hnem, hne, hcase, hget⟩
    · exact ⟨htip, hempty, ⟨tipBlock, hst⟩, hall⟩
    · have hlink : (block.PrevBlockHash = [] ∧ block.Height = 0) ∨
          (block.PrevBlockHash ≠ [] ∧ ∃ parent,
            StoredBlock env bc.db block.PrevBlockHash parent ∧
            block.Height = parent.Height + 1) := by
        rcases hlinked with h | h | h
        · exact absurd hfresh h
        · exact Or.inl h
        · exact Or.inr h
      obtain ⟨h1, h2, h3, h4⟩ := linked_extend env hgob bc.db bc2.db block bc2.tip hne hnem
        hfresh hget hempty hall hlink
      refine ⟨by rw [hget, if_pos rfl], h1, ?_, h4⟩
      rcases hcase with ⟨-, ht⟩ | ⟨-, ht⟩
      · exact ⟨tipBlock, ht ▸ h2 _ _ hst⟩
      · exact ⟨block, ht ▸ h3⟩
  | mineBlock bc fuel transactions now newBlock bc2 _ hguard hmine ih =>
    obtain ⟨htip, hempty, ⟨tipBlock, hst⟩, hall⟩ := ih
    obtain ⟨hfresh, hfits⟩ := hguard
    obtain ⟨hprev, hheight, -, hlen, ht, hget⟩ :=
      MineBlock_spec env fuel bc bc2 transactions now newBlock tipBlock htip hst hmine
    obtain ⟨hnem, hne⟩ := hash32_ne _ hlen
    have hh : newBlock.Height = tipBlock.Height + 1 := by
      rw [hheight]
      exact hfits _ (GetBestHeight_of_stored env bc tipBlock htip hst)
    have htne : bc.tip ≠ [] := by
      obtain ⟨-, v, hv, -⟩ := hst
      intro he
      rw [he, hempty] at hv
      cases hv
    obtain ⟨h1, -, h3, h4⟩ := linked_extend env hgob bc.db bc2.db newBlock newBlock.Hash hne
      hnem hfresh hget hempty hall
      (Or.inr ⟨hprev ▸ htne, tipBlock, hprev ▸ hst, hh⟩)
    exact ⟨by rw [hget, if_pos rfl, ht], h1, ⟨newBlock, ht ▸ h3⟩, h4⟩

/-! ## Proof of work: the claims -/

/-- C1: for every transaction batch, previous hash and height, if some nonce
below `maxNonce` gives a header hash below the target (so the search of `Run`
stops below `maxNonce`), then `NewBlock` returns a block and
`NewProofOfWork(b).Validate()` returns true on it. -/
theorem NewBlock_passes_Validate (env : Env) (now : Int) (transactions : List Transaction)
    (prevBlockHash : Bytes) (height : Int)
    (hsol : ∃ n : Nat, n < maxNonce ∧ ∃ data,
      prepareData env (NewProofOfWork ⟨now, transactions, prevBlockHash, [], 0, height⟩)
        (n : Int) = some data ∧
      hashInt (env.sha256 data) < 2 ^ (256 - targetBits)) :
    ∃ b, NewBlock env now transactions prevBlockHash height = some b ∧
      b.Nonce < maxNonce ∧ Validate env (NewProofOfWork b) = some true := by
  obtain ⟨n, hn, data, hd, hb⟩ := hsol
  have hb2 : hashInt (env.sha256 data) <
      (NewProofOfWork ⟨now, transactions, prevBlockHash, [], 0, height⟩).target := by
    simpa [NewProofOfWork] using hb
  obtain ⟨n2, h, hrun, hle⟩ := Run.loop_finds env _ maxNonce 0 (List.replicate 32 0) n
    (Nat.zero_le _) (by omega) hn ⟨data, hd, hb2⟩
  obtain ⟨-, ⟨data2, hd2, -, hb3⟩, -⟩ := Run.loop_sound env _ maxNonce 0 _ n2 h
    (by omega) hrun (by omega)
  refine ⟨⟨now, transactions, prevBlockHash, h, (n2 : Int), height⟩, ?_, ?_, ?_⟩
  · exact NewBlock_of_loop env now transactions prevBlockHash height n2 h hrun
  · show ((n2 : Nat) : Int) < (maxNonce : Int)
    exact_mod_cast (by omega : n2 < maxNonce)
  · have hcongr := prepareData_congr env
      { Timestamp := now, Transactions := transactions, PrevBlockHash := prevBlockHash,
        Hash := h, Nonce := (n2 : Int), Height := height }
      ⟨now, transactions, prevBlockHash, [], 0, height⟩ (n2 : Int) rfl rfl rfl
    rw [hd2] at hcongr
    unfold Validate
    rw [show (NewProofOfWork ⟨now, transactions, prevBlockHash, h, (n2 : Int), height⟩).block.Nonce
      = (n2 : Int) from rfl, hcongr]
    simpa [NewProofOfWork] using hb3

/-- C1, on a concrete input: with the toy hash the nonce 3 solves the genesis
header, and the block `NewBlock` returns validates. -/
theorem NewBlock_passes_Validate_witness :
    Run Toy.env (NewProofOfWork ⟨0, [Toy.coinbase], [], [], 0, 0⟩) =
        some (3, [0, 0, 3, 0, 0, 0, 0, 0, 0, 0, 16, 0, 0, 0, 0, 0, 0, 0, 0, 0, 0, 0,
          0, 0, 0, 0, 7, 1, 20, 1, 84, 1]) ∧
      ∃ b, NewBlock Toy.env 0 [Toy.coinbase] [] 0 = some b ∧
        b.Nonce < maxNonce ∧ Validate Toy.env (NewProofOfWork b) = some true :=
  ⟨by decide, NewBlock_passes_Validate Toy.env 0 [Toy.coinbase] [] 0
    ⟨3, by decide, _, rfl, by decide⟩⟩

/-- C3: `Run` returns the first valid nonce. Whenever `Run` returns `(n, hash)`
with `n` below `maxNonce`, `hash` is SHA256 of the preimage for `n` and is
below the target, and for every `m < n` SHA256 of the preimage for `m` is not
below the target. -/
theorem Run_first_valid_nonce (env : Env) (pow : ProofOfWork) (n : Nat) (hash : Bytes)
    (hrun : Run env pow = some (n, hash)) (hn : n < maxNonce) :
    (∃ data, prepareData env pow (n : Int) = some data ∧ hash = env.sha256 data ∧
      hashInt (env.sha256 data) < pow.target) ∧
    ∀ m : Nat, m < n → ∃ data, prepareData env pow (m : Int) = some data ∧
      ¬ hashInt (env.sha256 data) < pow.target := by
  obtain ⟨-, h2, h3⟩ := Run.loop_sound env pow maxNonce 0 _ n hash (by omega) hrun hn
  exact ⟨h2, fun m hm => h3 m (Nat.zero_le _) hm⟩

/-- C3, on a concrete input: the toy search returns nonce 3 after 0, 1 and 2 failed. -/
theorem Run_first_valid_nonce_witness :
    Run Toy.env (NewProofOfWork ⟨7, [Toy.coinbase], [5], [], 0, 1⟩) =
        some (3, [0, 0, 3, 0, 0, 0, 0, 0, 0, 0, 16, 0, 0, 0, 0, 0, 0, 0, 7, 0, 0, 0,
          0, 0, 0, 0, 7, 1, 20, 1, 84, 1]) ∧
      (∃ data, prepareData Toy.env (NewProofOfWork ⟨7, [Toy.coinbase], [5], [], 0, 1⟩)
          ((3 : Nat) : Int) = some data ∧
        [0, 0, 3, 0, 0, 0, 0, 0, 0, 0, 16, 0, 0, 0, 0, 0, 0, 0, 7, 0, 0, 0,
          0, 0, 0, 0, 7, 1, 20, 1, 84, 1] = Toy.env.sha256 data ∧
        hashInt (Toy.env.sha256 data) <
          (NewProofOfWork ⟨7, [Toy.coinbase], [5], [], 0, 1⟩).target) ∧
      ∀ m : Nat, m < 3 → ∃ data,
        prepareData Toy.env (NewProofOfWork ⟨7, [Toy.coinbase], [5], [], 0, 1⟩)
          (m : Int) = some data ∧
        ¬ hashInt (Toy.env.sha256 data) <
          (NewProofOfWork ⟨7, [Toy.coinbase], [5], [], 0, 1⟩).target :=
  ⟨by decide, Run_first_valid_nonce Toy.env _ 3 _ (by decide) (by decide)⟩

/-! ## Merkle commitment: the claims -/

/-- The root `NewMerkleTree` computes for one byte string. -/
theorem merkleRoot_one (env : Env) (a : Bytes) :
    merkleRoot env [a] = some (env.sha256 (env.sha256 a ++ env.sha256 a)) := by
  simp [merkleRoot, NewMerkleTree, NewMerkleTree.pad, NewMerkleTree.leaves,
    NewMerkleTree.levels, NewMerkleTree.level, NewMerkleNode, MerkleNode.Data]

/-- The root `NewMerkleTree` computes for two byte strings. -/
theorem merkleRoot_two (env : Env) (a b : Bytes) :
    merkleRoot env [a, b] = some (env.sha256 (env.sha256 a ++ env.sha256 b)) := by
  simp [merkleRoot, NewMerkleTree, NewMerkleTree.pad, NewMerkleTree.leaves,
    NewMerkleTree.levels, NewMerkleTree.level, NewMerkleNode, MerkleNode.Data]

/-- C5, at a failing input: on five byte strings `NewMerkleTree` does not
complete. The input is padded to six leaves, the first level has three nodes,
and the second pass of the level loop reads `nodes[3]`, out of range; the
reference Merkle root of the same input is defined. -/
theorem NewMerkleTree_five_panics (env : Env) (a b c d e : Bytes) :
    merkleRoot env [a, b, c, d, e] = none ∧
    refMerkleRoot env [a, b, c, d, e] = some (env.sha256
      (env.sha256 (env.sha256 (env.sha256 a ++ env.sha256 b)
          ++ env.sha256 (env.sha256 c ++ env.sha256 d))
        ++ env.sha256 (env.sha256 (env.sha256 e ++ env.sha256 e)
          ++ env.sha256 (env.sha256 e ++ env.sha256 e)))) := by
  constructor
  · simp [merkleRoot, NewMerkleTree, NewMerkleTree.pad, NewMerkleTree.leaves,
      NewMerkleTree.levels, NewMerkleTree.level, NewMerkleNode]
  · simp [refMerkleRoot, refReduce, refLevel]

/-- C6: for every byte string `A`, the Merkle root of `[A]` equals the Merkle
root of `[A, A]`, and both equal `SHA256(SHA256(A) || SHA256(A))`. -/
theorem merkleRoot_single_eq_pair (env : Env) (A : Bytes) :
    merkleRoot env [A] = merkleRoot env [A, A] ∧
    merkleRoot env [A] = some (env.sha256 (env.sha256 A ++ env.sha256 A)) ∧
    merkleRoot env [A, A] = some (env.sha256 (env.sha256 A ++ env.sha256 A)) := by
  rw [merkleRoot_one, merkleRoot_two]
  exact ⟨rfl, rfl, rfl⟩

/-- C7: the Merkle root is order-sensitive. For distinct byte strings `A` and
`B`, with SHA-256 collision-free on the values hashed (the two leaves and the
two concatenations of leaf hashes), `NewMerkleTree` gives `[A, B]` and `[B, A]`
different roots. -/
theorem merkleRoot_order_sensitive (env : Env) (A B : Bytes) (hAB : A ≠ B)
    (hleaf : env.sha256 A = env.sha256 B → A = B)
    (hnode : env.sha256 (env.sha256 A ++ env.sha256 B)
        = env.sha256 (env.sha256 B ++ env.sha256 A) →
      env.sha256 A ++ env.sha256 B = env.sha256 B ++ env.sha256 A) :
    ∃ r1 r2, merkleRoot env [A, B] = some r1 ∧ merkleRoot env [B, A] = some r2 ∧ r1 ≠ r2 := by
  refine ⟨_, _, merkleRoot_two env A B, merkleRoot_two env B A, fun heq => hAB (hleaf ?_)⟩
  have happ := hnode heq
  exact (List.append_inj happ (by rw [env.sha256_length, env.sha256_length])).1

/-- C7, on a concrete input: the toy hash separates `[1]`, `[2]` and the two
concatenations of their hashes. -/
theorem merkleRoot_order_sensitive_witness :
    ([1] : Bytes) ≠ [2] ∧
    ∃ r1 r2, merkleRoot Toy.env [[1], [2]] = some r1 ∧
      merkleRoot Toy.env [[2], [1]] = some r2 ∧ r1 ≠ r2 :=
  ⟨by decide, merkleRoot_order_sensitive Toy.env [1] [2] (by decide) (by decide) (by decide)⟩

/-! ## Chain store: the claims -/

/-- C8: `AddBlock` is idempotent. Whenever `AddBlock(b)` returns, a second
`AddBlock(b)` returns the same store: the stored mapping, the persisted tip key
and the in-memory tip are those left by the first call. More generally
`AddBlock(b)` changes nothing in any store that has a value under `b.Hash`. -/
theorem AddBlock_idempotent (env : Env) (bc bc1 : Blockchain) (block : Block)
    (hadd : AddBlock env bc block = some bc1) :
    AddBlock env bc1 block = some bc1 ∧
    ∀ bc0 : Blockchain, bc0.db.Get block.Hash ≠ none → AddBlock env bc0 block = some bc0 := by
  have hnoop : ∀ bc0 : Blockchain, bc0.db.Get block.Hash ≠ none →
      AddBlock env bc0 block = some bc0 := by
    intro bc0 h0
    unfold AddBlock
    cases hg : bc0.db.Get block.Hash with
    | none => exact absurd hg h0
    | some v => rfl
  refine ⟨hnoop bc1 ?_, hnoop⟩
  unfold AddBlock at hadd
  cases hget : bc.db.Get block.Hash with
  | some v =>
    simp only [hget, Option.some.injEq] at hadd
    subst hadd
    simp [hget]
  | none =>
    simp only [hget] at hadd
    cases hp1 : bc.db.Put block.Hash (Serialize env block) with
    | none => simp [hp1] at hadd
    | some b1 =>
      simp only [hp1] at hadd
      obtain ⟨-, hget1⟩ := Bucket.Get_Put _ _ _ _ hp1
      cases ht : b1.Get tipKey with
      | none => simp [ht] at hadd
      | some lastHash =>
        simp only [ht] at hadd
        cases hd : DeserializeBlock env (b1.Get lastHash) with
        | none => simp [hd] at hadd
        | some lastBlock =>
          simp only [hd] at hadd
          by_cases hgt : block.Height > lastBlock.Height
          · rw [if_pos hgt] at hadd
            cases hp2 : b1.Put tipKey block.Hash with
            | none => simp [hp2] at hadd
            | some b2 =>
              simp only [hp2, Option.some.injEq] at hadd
              subst hadd
              obtain ⟨-, hget2⟩ := Bucket.Get_Put _ _ _ _ hp2
              show b2.Get block.Hash ≠ none
              rw [hget2, hget1, if_pos rfl]
              split <;> simp
          · rw [if_neg hgt] at hadd
            simp only [Option.some.injEq] at hadd
            subst hadd
            show b1.Get block.Hash ≠ none
            rw [hget1, if_pos rfl]
            simp

/-- C8, on a concrete input: adding the height-5 block to the toy genesis store
twice. -/
theorem AddBlock_idempotent_witness :
    AddBlock Toy.env Toy.chain0 Toy.tallBlock = some Toy.tallChain ∧
    AddBlock Toy.env Toy.tallChain Toy.tallBlock = some Toy.tallChain ∧
    ∀ bc0 : Blockchain, bc0.db.Get Toy.tallBlock.Hash ≠ none →
      AddBlock Toy.env bc0 Toy.tallBlock = some bc0 :=
  ⟨by decide, AddBlock_idempotent Toy.env Toy.chain0 Toy.tallChain Toy.tallBlock (by decide)⟩

/-- C9, as stated, fails: after `CreateBlockchain`, `AddBlock` of a block of
height `2^63 - 1` and one `MineBlock`, the new tip block has height `-2^63`
(the sum `lastHeight+1` wrapped around) while the added block is still stored,
so the tip does not name a block of greatest height. -/
theorem tip_not_max_after_overflow :
    CreateBlockchain Toy.env false Toy.coinbase 0 = some Toy.chain0 ∧
    AddBlock Toy.env Toy.chain0 Toy.topBlock = some Toy.topChain ∧
    MineBlock Toy.env 1 Toy.topChain [Toy.coinbase] 1 =
      .ok (Toy.wrappedBlock, Toy.wrappedChain) ∧
    Reachable Toy.env anyCall anyCall Toy.wrappedChain ∧
    StoredBlock Toy.env Toy.wrappedChain.db Toy.wrappedChain.tip Toy.wrappedBlock ∧
    StoredBlock Toy.env Toy.wrappedChain.db [9] Toy.topBlock ∧
    Toy.wrappedBlock.Height < Toy.topBlock.Height ∧
    ¬ TipIsMax Toy.env Toy.wrappedChain := by
  have h0 : CreateBlockchain Toy.env false Toy.coinbase 0 = some Toy.chain0 := by decide
  have h1 : AddBlock Toy.env Toy.chain0 Toy.topBlock = some Toy.topChain := by decide
  have h2 : MineBlock Toy.env 1 Toy.topChain [Toy.coinbase] 1 =
      .ok (Toy.wrappedBlock, Toy.wrappedChain) := by decide
  have hw : StoredBlock Toy.env Toy.wrappedChain.db Toy.wrappedChain.tip Toy.wrappedBlock :=
    ⟨by decide, Toy.encBlock Toy.wrappedBlock, by decide,
      Toy.decBlock_encBlock Toy.wrappedBlock⟩
  have htop : StoredBlock Toy.env Toy.wrappedChain.db [9] Toy.topBlock :=
    ⟨by decide, Toy.encBlock Toy.topBlock, by decide, Toy.decBlock_encBlock Toy.topBlock⟩
  refine ⟨h0, h1, h2, ?_, hw, htop, by decide, ?_⟩
  · exact Reachable.mineBlock _ 1 [Toy.coinbase] 1 _ _
      (Reachable.addBlock _ Toy.topBlock _ (Reachable.create false Toy.coinbase 0 _ h0)
        trivial h1) trivial h2
  · rintro ⟨-, tipBlock, hst, hmax⟩
    have heq := StoredBlock_unique Toy.env _ _ _ _ hst hw
    subst heq
    exact absurd (hmax _ _ htop) (by decide)

/-- C9 (amended): with gob decoding every block it encoded, in every store
reachable from `CreateBlockchain` by `AddBlock` calls and by `MineBlock` calls
made while the tip block's height plus one does not overflow, the tip names a
stored block whose height is greater than or equal to the height of every
stored block; and `AddBlock` of a block whose height is at most the tip block's
height leaves the in-memory tip and the persisted tip key unchanged. -/
theorem tip_is_max (env : Env) (hgob : ∀ b, env.gobDecode (env.gobEncode b) = some b)
    (bc : Blockchain) (hreach : Reachable env anyCall (heightFits env) bc) :
    TipIsMax env bc ∧
    ∀ (block tipBlock : Block) (bc2 : Blockchain),
      StoredBlock env bc.db bc.tip tipBlock → block.Height ≤ tipBlock.Height →
      AddBlock env bc block = some bc2 →
      bc2.tip = bc.tip ∧ bc2.db.Get tipKey = some bc.tip := by
  have hmax := TipIsMax_of_reachable env hgob bc hreach
  refine ⟨hmax, fun block tipBlock bc2 hst hle hadd => ?_⟩
  obtain ⟨htip, -⟩ := hmax
  rcases AddBlock_spec env bc bc2 block tipBlock htip hst hadd with
    ⟨-, rfl⟩ | ⟨-, -, -, hcase, hget⟩
  · exact ⟨rfl, htip⟩
  · rcases hcase with ⟨-, ht⟩ | ⟨hlt, -⟩
    · exact ⟨ht, by rw [hget, if_pos rfl, ht]⟩
    · omega

/-- C9 (amended), on a concrete input: the toy store after one `MineBlock` on
the genesis store, where the tip height 0 plus one does not overflow. -/
theorem tip_is_max_witness :
    Reachable Toy.env anyCall (heightFits Toy.env) Toy.minedChain ∧
    TipIsMax Toy.env Toy.minedChain ∧
    ∀ (block tipBlock : Block) (bc2 : Blockchain),
      StoredBlock Toy.env Toy.minedChain.db Toy.minedChain.tip tipBlock →
      block.Height ≤ tipBlock.Height →
      AddBlock Toy.env Toy.minedChain block = some bc2 →
      bc2.tip = Toy.minedChain.tip ∧ bc2.db.Get tipKey = some Toy.minedChain.tip :=
  have hreach : Reachable Toy.env anyCall (heightFits Toy.env) Toy.minedChain :=
    Reachable.mineBlock Toy.chain0 1 [Toy.coinbase] 1 Toy.minedBlock _
      (Reachable.create false Toy.coinbase 0 _ (by decide))
      (fun h hh => by
        have h0 : GetBestHeight Toy.env Toy.chain0 = some 0 := by decide
        rw [h0] at hh
        cases hh
        decide)
      (by decide)
  ⟨hreach, tip_is_max Toy.env Toy.decBlock_encBlock Toy.minedChain hreach⟩

/-- C10, as stated, fails: after `CreateBlockchain` and `AddBlock` of a block
that claims height 5 with the genesis hash as `prev_hash`, the tip block has
height 5 but following `prev_hash` from the tip visits two blocks, and
`GetBlockHashes` returns two hashes, not six. -/
theorem chain_walk_shorter_than_height :
    CreateBlockchain Toy.env false Toy.coinbase 0 = some Toy.chain0 ∧
    AddBlock Toy.env Toy.chain0 Toy.tallBlock = some Toy.tallChain ∧
    Reachable Toy.env anyCall anyCall Toy.tallChain ∧
    GetBestHeight Toy.env Toy.tallChain = some 5 ∧
    GetBlockHashes Toy.env 6 Toy.tallChain = .ok [[9], Toy.genesisHash] := by
  have h0 : CreateBlockchain Toy.env false Toy.coinbase 0 = some Toy.chain0 := by decide
  have h1 : AddBlock Toy.env Toy.chain0 Toy.tallBlock = some Toy.tallChain := by decide
  exact ⟨h0, h1, Reachable.addBlock _ Toy.tallBlock _
    (Reachable.create false Toy.coinbase 0 _ h0) trivial h1, by decide, by decide⟩

/-- C10 (amended): with gob decoding every block it encoded, in every store
reachable from `CreateBlockchain` by `AddBlock` calls whose block is linked
(already stored, or with empty `prev_hash` and height 0, or with a non-empty
`prev_hash` naming a stored block of height one less) and by `MineBlock` calls
whose new hash is not yet a key of the store and whose height does not
overflow, following `prev_hash` from the tip reaches a block with empty
`prev_hash` after visiting exactly (tip block height + 1) blocks, and
`GetBlockHashes` returns a list of that length (after that many steps of its
loop and no fewer). -/
theorem chain_walk_length (env : Env) (hgob : ∀ b, env.gobDecode (env.gobEncode b) = some b)
    (bc : Blockchain) (hreach : Reachable env (linkedBlock env) (freshBlock env) bc) :
    ∃ (n : Nat) (hashes : List Bytes),
      GetBestHeight env bc = some (n : Int) ∧ ChainFrom env bc.db n bc.tip ∧
      hashes.length = n + 1 ∧
      (∀ fuel, n + 1 ≤ fuel → GetBlockHashes env fuel bc = .ok hashes) ∧
      (∀ fuel, fuel ≤ n → GetBlockHashes env fuel bc = .unfinished) := by
  obtain ⟨htip, -, ⟨tipBlock, hst⟩, hall⟩ := linked_of_reachable env hgob bc hreach
  obtain ⟨n, hn, hc⟩ := hall _ _ hst
  obtain ⟨hashes, hlen, hok, hshort⟩ := GetBlockHashes.loop_chain env bc.db n bc.tip hc []
  refine ⟨n, hashes, ?_, hc, by simpa using hlen, hok, hshort⟩
  rw [GetBestHeight_of_stored env bc tipBlock htip hst, hn]

/-- C10 (amended), on a concrete input: the toy store after one `MineBlock` on
the genesis store and one `AddBlock` of a height-1 block on the genesis block. -/
theorem chain_walk_length_witness :
    Reachable Toy.env (linkedBlock Toy.env) (freshBlock Toy.env) Toy.sideChain ∧
    GetBlockHashes Toy.env 2 Toy.sideChain = .ok [Toy.minedHash, Toy.genesisHash] ∧
    ∃ (n : Nat) (hashes : List Bytes),
      GetBestHeight Toy.env Toy.sideChain = some (n : Int) ∧
      ChainFrom Toy.env Toy.sideChain.db n Toy.sideChain.tip ∧
      hashes.length = n + 1 ∧
      (∀ fuel, n + 1 ≤ fuel → GetBlockHashes Toy.env fuel Toy.sideChain = .ok hashes) ∧
      (∀ fuel, fuel ≤ n → GetBlockHashes Toy.env fuel Toy.sideChain = .unfinished) :=
  have hmined : Reachable Toy.env (linkedBlock Toy.env) (freshBlock Toy.env) Toy.minedChain :=
    Reachable.mineBlock Toy.chain0 1 [Toy.coinbase] 1 Toy.minedBlock _
      (Reachable.create false Toy.coinbase 0 _ (by decide))
      ⟨by decide, fun h hh => by
        have h0 : GetBestHeight Toy.env Toy.chain0 = some 0 := by decide
        rw [h0] at hh
        cases hh
        decide⟩
      (by decide)
  have hreach : Reachable Toy.env (linkedBlock Toy.env) (freshBlock Toy.env) Toy.sideChain :=
    Reachable.addBlock Toy.minedChain Toy.sideBlock _ hmined
      (Or.inr (Or.inr ⟨by decide, Toy.genesis,
        ⟨by decide, Toy.encBlock Toy.genesis, by decide, Toy.decBlock_encBlock Toy.genesis⟩,
        by decide⟩))
      (by decide)
  ⟨hreach, by decide, chain_walk_length Toy.env Toy.decBlock_encBlock Toy.sideChain hreach⟩

/-! ## Second group of claims: proof of work and Merkle tree -/

/-- The loop of `Run` gives the same result for two proofs of work with the
same target and the same preimages. -/
theorem Run.loop_congr (env : Env) (pow1 pow2 : ProofOfWork)
    (htarget : pow1.target = pow2.target)
    (hdata : ∀ nonce, prepareData env pow1 nonce = prepareData env pow2 nonce) :
    ∀ (left nonce : Nat) (hash : Bytes),
      Run.loop env pow1 left nonce hash = Run.loop env pow2 left nonce hash := by
  intro left
  induction left with
  | zero => intro nonce hash; rfl
  | succ left ih =>
    intro nonce hash
    unfold Run.loop
    rw [hdata, htarget]
    by_cases hlt : nonce < maxNonce
    · rw [if_pos hlt, if_pos hlt]
      cases prepareData env pow2 (nonce : Int) with
      | none => rfl
      | some data =>
        simp only
        rw [ih]
    · rw [if_neg hlt, if_neg hlt]

/-- C20: the proof of work does not commit to the block height. For two blocks
with the same timestamp, transactions and prev_hash (whatever their `Height`
and `Hash`), `prepareData` gives the same preimage for every nonce, `Run`
returns the same nonce and hash, and `Validate` returns the same result when
the recorded `Nonce` is the same. -/
theorem pow_ignores_height (env : Env) (b1 b2 : Block)
    (ht : b1.Timestamp = b2.Timestamp) (hx : b1.Transactions = b2.Transactions)
    (hp : b1.PrevBlockHash = b2.PrevBlockHash) :
    (∀ nonce, prepareData env (NewProofOfWork b1) nonce =
      prepareData env (NewProofOfWork b2) nonce) ∧
    Run env (NewProofOfWork b1) = Run env (NewProofOfWork b2) ∧
    (b1.Nonce = b2.Nonce →
      Validate env (NewProofOfWork b1) = Validate env (NewProofOfWork b2)) := by
  have hdata := fun nonce => prepareData_congr env b1 b2 nonce ht hx hp
  refine ⟨hdata, ?_, fun hn => ?_⟩
  · exact Run.loop_congr env (NewProofOfWork b1) (NewProofOfWork b2) rfl hdata maxNonce 0 _
  · unfold Validate
    rw [show (NewProofOfWork b1).block.Nonce = b2.Nonce from hn, hdata]
    rfl

/-- C20, on a concrete input: the toy genesis block and the same block with
height 77 and another hash. -/
theorem pow_ignores_height_witness :
    (∀ nonce, prepareData Toy.env (NewProofOfWork Toy.genesis) nonce =
      prepareData Toy.env (NewProofOfWork ⟨0, [Toy.coinbase], [], [5], 3, 77⟩) nonce) ∧
    Run Toy.env (NewProofOfWork Toy.genesis) =
      Run Toy.env (NewProofOfWork ⟨0, [Toy.coinbase], [], [5], 3, 77⟩) ∧
    (Toy.genesis.Nonce = (3 : Int) →
      Validate Toy.env (NewProofOfWork Toy.genesis) =
        Validate Toy.env (NewProofOfWork ⟨0, [Toy.coinbase], [], [5], 3, 77⟩)) :=
  pow_ignores_height Toy.env Toy.genesis ⟨0, [Toy.coinbase], [], [5], 3, 77⟩ rfl rfl rfl

/-- C18: for every input of 1 to 4 byte strings `NewMerkleTree` completes (no
index is out of range), its level loop ends with exactly one node, and the
root equals the reference Merkle root of the input padded to even length by
repeating its last element. -/
theorem NewMerkleTree_small (env : Env) (data : List Bytes)
    (h1 : 1 ≤ data.length) (h4 : data.length ≤ 4) :
    ∃ (padded : List Bytes) (nodes : List MerkleNode) (root : MerkleNode),
      (padded = data ∨ ∃ last, data.getLast? = some last ∧ padded = data ++ [last]) ∧
      padded.length % 2 = 0 ∧
      NewMerkleTree.pad data = some padded ∧
      NewMerkleTree.leaves env padded = some nodes ∧
      NewMerkleTree.levels env (padded.length / 2) nodes = some [root] ∧
      NewMerkleTree env data = some ⟨root⟩ ∧
      refMerkleRoot env padded = some root.Data := by
  rcases data with _ | ⟨a, _ | ⟨b, _ | ⟨c, _ | ⟨d, _ | ⟨e, rest⟩⟩⟩⟩⟩
  · simp at h1
  · refine ⟨[a, a], [.mk none none (env.sha256 a), .mk none none (env.sha256 a)],
      .mk (some (.mk none none (env.sha256 a))) (some (.mk none none (env.sha256 a)))
        (env.sha256 (env.sha256 a ++ env.sha256 a)), Or.inr ⟨a, rfl, rfl⟩, ?_, ?_, ?_, ?_, ?_, ?_⟩
    all_goals simp [NewMerkleTree, NewMerkleTree.pad, NewMerkleTree.leaves,
      NewMerkleTree.levels, NewMerkleTree.level, NewMerkleNode, MerkleNode.Data,
      refMerkleRoot, refReduce, refLevel]
  · refine ⟨[a, b], [.mk none none (env.sha256 a), .mk none none (env.sha256 b)],
      .mk (some (.mk none none (env.sha256 a))) (some (.mk none none (env.sha256 b)))
        (env.sha256 (env.sha256 a ++ env.sha256 b)), Or.inl rfl, ?_, ?_, ?_, ?_, ?_, ?_⟩
    all_goals simp [NewMerkleTree, NewMerkleTree.pad, NewMerkleTree.leaves,
      NewMerkleTree.levels, NewMerkleTree.level, NewMerkleNode, MerkleNode.Data,
      refMerkleRoot, refReduce, refLevel]
  · refine ⟨[a, b, c, c],
      [.mk none none (env.sha256 a), .mk none none (env.sha256 b),
        .mk none none (env.sha256 c), .mk none none (env.sha256 c)],
      .mk
        (some (.mk (some (.mk none none (env.sha256 a))) (some (.mk none none (env.sha256 b)))
          (env.sha256 (env.sha256 a ++ env.sha256 b))))
        (some (.mk (some (.mk none none (env.sha256 c))) (some (.mk none none (env.sha256 c)))
          (env.sha256 (env.sha256 c ++ env.sha256 c))))
        (env.sha256 (env.sha256 (env.sha256 a ++ env.sha256 b)
          ++ env.sha256 (env.sha256 c ++ env.sha256 c))),
      Or.inr ⟨c, rfl, rfl⟩, ?_, ?_, ?_, ?_, ?_, ?_⟩
    all_goals simp [NewMerkleTree, NewMerkleTree.pad, NewMerkleTree.leaves,
      NewMerkleTree.levels, NewMerkleTree.level, NewMerkleNode, MerkleNode.Data,
      refMerkleRoot, refReduce, refLevel]
  · refine ⟨[a, b, c, d],
      [.mk none none (env.sha256 a), .mk none none (env.sha256 b),
        .mk none none (env.sha256 c), .mk none none (env.sha256 d)],
      .mk
        (some (.mk (some (.mk none none (env.sha256 a))) (some (.mk none none (env.sha256 b)))
          (env.sha256 (env.sha256 a ++ env.sha256 b))))
        (some (.mk (some (.mk none none (env.sha256 c))) (some (.mk none none (env.sha256 d)))
          (env.sha256 (env.sha256 c ++ env.sha256 d))))
        (env.sha256 (env.sha256 (env.sha256 a ++ env.sha256 b)
          ++ env.sha256 (env.sha256 c ++ env.sha256 d))),
      Or.inl rfl, ?_, ?_, ?_, ?_, ?_, ?_⟩
    all_goals simp [NewMerkleTree, NewMerkleTree.pad, NewMerkleTree.leaves,
      NewMerkleTree.levels, NewMerkleTree.level, NewMerkleNode, MerkleNode.Data,
      refMerkleRoot, refReduce, refLevel]
  · simp at h4

/-- C18, on a concrete input: three one-byte strings. -/
theorem NewMerkleTree_small_witness :
    ∃ (padded : List Bytes) (nodes : List MerkleNode) (root : MerkleNode),
      (padded = [[1], [2], [3]] ∨
        ∃ last, ([[1], [2], [3]] : List Bytes).getLast? = some last ∧
          padded = [[1], [2], [3]] ++ [last]) ∧
      padded.length % 2 = 0 ∧
      NewMerkleTree.pad [[1], [2], [3]] = some padded ∧
      NewMerkleTree.leaves Toy.env padded = some nodes ∧
      NewMerkleTree.levels Toy.env (padded.length / 2) nodes = some [root] ∧
      NewMerkleTree Toy.env [[1], [2], [3]] = some ⟨root⟩ ∧
      refMerkleRoot Toy.env padded = some root.Data :=
  NewMerkleTree_small Toy.env [[1], [2], [3]] (by decide) (by decide)

/-! ## Second group of claims: the chain store -/

/-- The first match of `find?` splits the list: nothing before it matches. -/
theorem find_first {α : Type} (p : α → Bool) :
    ∀ (l : List α) (x : α), l.find? p = some x →
      p x = true ∧ ∃ pre post, l = pre ++ x :: post ∧ ∀ y ∈ pre, p y = false
  | [], x, h => by simp at h
  | a :: l, x, h => by
    by_cases ha : p a = true
    · simp only [List.find?, ha, Option.some.injEq] at h
      subst h
      exact ⟨ha, [], l, rfl, fun y hy => by simp at hy⟩
    · have ha2 : p a = false := by simpa using ha
      simp only [List.find?, ha2] at h
      obtain ⟨hx, pre, post, rfl, hpre⟩ := find_first p l x h
      refine ⟨hx, a :: pre, post, rfl, fun y hy => ?_⟩
      rcases List.mem_cons.mp hy with rfl | hy
      · exact ha2
      · exact hpre y hy

/-- `find?` finds nothing exactly when nothing matches. -/
theorem find_none {α : Type} (p : α → Bool) :
    ∀ l : List α, (∀ y ∈ l, p y = false) → l.find? p = none
  | [], _ => rfl
  | a :: l, h => by
    have ha : p a = false := h a (List.mem_cons_self a l)
    simp only [List.find?, ha]
    exact find_none p l (fun y hy => h y (List.mem_cons_of_mem a hy))

/-- `find?` on two lists one after the other. -/
theorem find_append {α : Type} (p : α → Bool) :
    ∀ l1 l2 : List α, (l1 ++ l2).find? p =
      match l1.find? p with
      | some x => some x
      | none => l2.find? p
  | [], l2 => rfl
  | a :: l1, l2 => by
    by_cases ha : p a = true
    · simp [List.find?, ha]
    · have ha2 : p a = false := by simpa using ha
      simp only [List.cons_append, List.find?, ha2]
      exact find_append p l1 l2

/-- On a chain that a walk with `fuel` steps traverses, the loop of
`FindTransaction` returns with the first transaction of that id in scan order,
or with the error when there is none. -/
theorem FindTransaction.loop_scan (env : Env) (db : Bucket) (ID : Bytes) :
    ∀ (fuel : Nat) (bci : BlockchainIterator) (blocks : List Block),
      chainBlocks.loop env db fuel bci = .ok blocks →
      FindTransaction.loop env db ID fuel bci =
        .ok (match (scanOrder blocks).find? (fun tx => decide (tx.ID = ID)) with
          | some tx => .ok tx
          | none => .error errTransactionNotFound) := by
  intro fuel
  induction fuel with
  | zero => intro bci blocks h; simp [chainBlocks.loop] at h
  | succ fuel ih =>
    intro bci blocks h
    unfold chainBlocks.loop at h
    unfold FindTransaction.loop
    cases hnext : bci.Next env db with
    | none => simp [hnext] at h
    | some r =>
      obtain ⟨block, bci2⟩ := r
      simp only [hnext] at h ⊢
      by_cases hprev : block.PrevBlockHash.length = 0
      · rw [if_pos hprev] at h
        simp only [Outcome.ok.injEq] at h
        subst h
        simp only [scanOrder, List.append_nil]
        cases hf : block.Transactions.find? (fun tx => decide (tx.ID = ID)) with
        | some tx => rfl
        | none => simp [hprev]
      · rw [if_neg hprev] at h
        cases hrest : chainBlocks.loop env db fuel bci2 with
        | panic => simp [hrest] at h
        | unfinished => simp [hrest] at h
        | ok rest =>
          simp only [hrest, Outcome.ok.injEq] at h
          subst h
          simp only [scanOrder]
          rw [find_append]
          cases hf : block.Transactions.find? (fun tx => decide (tx.ID = ID)) with
          | some tx => rfl
          | none =>
            simp only [if_neg hprev]
            exact ih bci2 rest hrest

/-- C17: `FindTransaction` finds exactly the transactions on the chain. On
every chain that the walk from the tip traverses down to a genesis block, when
some block holds a transaction with the id, `FindTransaction` returns without
error a transaction with that id, the first one met scanning blocks tip to
genesis and transactions in block order; when none does, it returns the error
"Transaction is not found". -/
theorem FindTransaction_finds (env : Env) (fuel : Nat) (bc : Blockchain)
    (blocks : List Block) (ID : Bytes) (hchain : chainBlocks env fuel bc = .ok blocks) :
    ((∃ tx ∈ scanOrder blocks, tx.ID = ID) →
      ∃ tx pre post, FindTransaction env fuel bc ID = .ok (.ok tx) ∧ tx.ID = ID ∧
        scanOrder blocks = pre ++ tx :: post ∧ ∀ earlier ∈ pre, earlier.ID ≠ ID) ∧
    ((∀ tx ∈ scanOrder blocks, tx.ID ≠ ID) →
      FindTransaction env fuel bc ID = .ok (.error errTransactionNotFound)) := by
  have hloop := FindTransaction.loop_scan env bc.db ID fuel (Iterator bc) blocks hchain
  constructor
  · rintro ⟨tx0, hmem, hid⟩
    cases hf : (scanOrder blocks).find? (fun tx => decide (tx.ID = ID)) with
    | none =>
      have h0 := List.find?_eq_none.mp hf tx0 hmem
      simp [hid] at h0
    | some tx =>
      obtain ⟨hp, pre, post, hsplit, hpre⟩ := find_first _ _ _ hf
      refine ⟨tx, pre, post, ?_, by simpa using hp, hsplit, fun y hy => ?_⟩
      · rw [hf] at hloop
        exact hloop
      · simpa using hpre y hy
  · intro hnone
    have hf : (scanOrder blocks).find? (fun tx => decide (tx.ID = ID)) = none :=
      find_none _ _ (fun y hy => by simpa using hnone y hy)
    rw [hf] at hloop
    exact hloop

/-- C17, on a concrete input: the toy chain of two blocks, each holding the
coinbase transaction with id `[1]`; the id `[2]` is on no block. -/
theorem FindTransaction_finds_witness :
    chainBlocks Toy.env 2 Toy.minedChain = .ok [Toy.minedBlock, Toy.genesis] ∧
    FindTransaction Toy.env 2 Toy.minedChain [1] = .ok (.ok Toy.coinbase) ∧
    ((∃ tx ∈ scanOrder [Toy.minedBlock, Toy.genesis], tx.ID = [2]) →
      ∃ tx pre post, FindTransaction Toy.env 2 Toy.minedChain [2] = .ok (.ok tx) ∧
        tx.ID = [2] ∧ scanOrder [Toy.minedBlock, Toy.genesis] = pre ++ tx :: post ∧
        ∀ earlier ∈ pre, earlier.ID ≠ [2]) ∧
    ((∀ tx ∈ scanOrder [Toy.minedBlock, Toy.genesis], tx.ID ≠ [2]) →
      FindTransaction Toy.env 2 Toy.minedChain [2] = .ok (.error errTransactionNotFound)) :=
  ⟨by decide, rfl, FindTransaction_finds Toy.env 2 Toy.minedChain _ [2] (by decide)⟩

/-- C16, as stated, fails at the reserved tip key: in the toy genesis store
`GetBlock("l")` finds the tip hash under the key, decodes it as a block and
aborts; it does not return the error "Block is not found.". -/
theorem GetBlock_tip_key_aborts :
    (∀ b, Toy.chain0.db.Get tipKey ≠ some (Serialize Toy.env b)) ∧
    Toy.chain0.db.Get tipKey = some Toy.genesisHash ∧
    GetBlock Toy.env Toy.chain0 tipKey = none ∧
    GetBlock Toy.env Toy.chain0 tipKey ≠ some (.error errBlockNotFound) := by
  refine ⟨fun b hb => ?_, by decide, rfl, by simp [show GetBlock Toy.env Toy.chain0 tipKey = none from rfl]⟩
  have hg : Toy.chain0.db.Get tipKey = some Toy.genesisHash := by decide
  rw [hg] at hb
  have hd : Toy.decBlock Toy.genesisHash = none := by decide
  have hb2 : Toy.genesisHash = Toy.encBlock b := Option.some.inj hb
  rw [hb2, Toy.decBlock_encBlock] at hd
  cases hd

/-- C16 (amended): with gob decoding every block it encoded, `GetBlock(h)`
returns the block persisted under `h` with no error when one is, and returns
the error "Block is not found." (without aborting) exactly when no value is
stored under `h`. For a key that holds a value `v`, the reserved tip key among
them, the result is what gob makes of `v`: the decoded block with no error
when gob decodes `v`, and an abort when gob fails on it; it is never that
error. -/
theorem GetBlock_spec (env : Env) (hgob : ∀ b, env.gobDecode (env.gobEncode b) = some b)
    (bc : Blockchain) (h : Bytes) :
    (∀ b, bc.db.Get h = some (Serialize env b) → GetBlock env bc h = some (.ok b)) ∧
    (GetBlock env bc h = some (.error errBlockNotFound) ↔ bc.db.Get h = none) ∧
    (∀ v, bc.db.Get h = some v →
      (∀ b, env.gobDecode v = some b → GetBlock env bc h = some (.ok b)) ∧
      (env.gobDecode v = none → GetBlock env bc h = none)) ∧
    (∀ v, bc.db.Get tipKey = some v →
      (∀ b, env.gobDecode v = some b → GetBlock env bc tipKey = some (.ok b)) ∧
      (env.gobDecode v = none → GetBlock env bc tipKey = none)) := by
  have hval : ∀ (k v : Bytes), bc.db.Get k = some v →
      (∀ b, env.gobDecode v = some b → GetBlock env bc k = some (.ok b)) ∧
      (env.gobDecode v = none → GetBlock env bc k = none) := by
    intro k v hv
    constructor
    · intro b hb
      simp only [GetBlock, DeserializeBlock, hv, hb]
    · intro hb
      simp only [GetBlock, DeserializeBlock, hv, hb]
  refine ⟨fun b hb => ?_, ⟨fun he => ?_, fun hn => ?_⟩, hval h, hval tipKey⟩
  · exact (hval h _ hb).1 b (hgob b)
  · cases hv : bc.db.Get h with
    | none => rfl
    | some v =>
      cases hd : env.gobDecode v with
      | none =>
        rw [(hval h v hv).2 hd] at he
        cases he
      | some b =>
        rw [(hval h v hv).1 b hd] at he
        cases he
  · simp only [GetBlock, hn]

/-- C16 (amended), on a concrete input: the toy genesis store at the genesis
hash, with the results at the unused key `[3]` and at the tip key, whose value
the toy decoder rejects. -/
theorem GetBlock_spec_witness :
    (∀ b, Toy.env.gobDecode (Toy.env.gobEncode b) = some b) ∧
    GetBlock Toy.env Toy.chain0 Toy.genesisHash = some (.ok Toy.genesis) ∧
    GetBlock Toy.env Toy.chain0 [3] = some (.error errBlockNotFound) ∧
    Toy.chain0.db.Get tipKey = some Toy.genesisHash ∧
    Toy.env.gobDecode Toy.genesisHash = none ∧
    GetBlock Toy.env Toy.chain0 tipKey = none ∧
    (∀ b, Toy.chain0.db.Get Toy.genesisHash = some (Serialize Toy.env b) →
      GetBlock Toy.env Toy.chain0 Toy.genesisHash = some (.ok b)) ∧
    (GetBlock Toy.env Toy.chain0 Toy.genesisHash = some (.error errBlockNotFound) ↔
      Toy.chain0.db.Get Toy.genesisHash = none) ∧
    (∀ v, Toy.chain0.db.Get Toy.genesisHash = some v →
      (∀ b, Toy.env.gobDecode v = some b →
        GetBlock Toy.env Toy.chain0 Toy.genesisHash = some (.ok b)) ∧
      (Toy.env.gobDecode v = none → GetBlock Toy.env Toy.chain0 Toy.genesisHash = none)) ∧
    (∀ v, Toy.chain0.db.Get tipKey = some v →
      (∀ b, Toy.env.gobDecode v = some b →
        GetBlock Toy.env Toy.chain0 tipKey = some (.ok b)) ∧
      (Toy.env.gobDecode v = none → GetBlock Toy.env Toy.chain0 tipKey = none)) :=
  ⟨Toy.decBlock_encBlock, rfl, rfl, by decide, by decide, rfl,
    GetBlock_spec Toy.env Toy.decBlock_encBlock Toy.chain0 Toy.genesisHash⟩

/-- When the first loop of `MineBlock` passes, every transaction of the batch
verified. -/
theorem MineBlock.verifyAll_ok (env : Env) (fuel : Nat) (bc : Blockchain) :
    ∀ (transactions : List Transaction) (u : Unit),
      MineBlock.verifyAll env fuel bc transactions = .ok u →
      ∀ tx ∈ transactions, VerifyTransaction env fuel bc tx = .ok true
  | [], _, _ => fun tx hmem => by simp at hmem
  | t :: rest, u, h => by
    unfold MineBlock.verifyAll at h
    cases hv : VerifyTransaction env fuel bc t with
    | unfinished => simp [hv] at h
    | panic => simp [hv] at h
    | ok valid =>
      cases valid with
      | false => simp [hv] at h
      | true =>
        simp only [hv] at h
        intro tx hmem
        rcases List.mem_cons.mp hmem with rfl | hmem
        · exact hv
        · exact MineBlock.verifyAll_ok env fuel bc rest u h tx hmem

/-- A returning `MineBlock` passed its first loop. -/
theorem MineBlock_verified (env : Env) (fuel : Nat) (bc bc2 : Blockchain)
    (transactions : List Transaction) (now : Int) (newBlock : Block)
    (hmine : MineBlock env fuel bc transactions now = .ok (newBlock, bc2)) :
    ∀ tx ∈ transactions, VerifyTransaction env fuel bc tx = .ok true := by
  unfold MineBlock at hmine
  cases hver : MineBlock.verifyAll env fuel bc transactions with
  | unfinished => simp [hver] at hmine
  | panic => simp [hver] at hmine
  | ok u => exact MineBlock.verifyAll_ok env fuel bc transactions u hver

/-- For one to four byte strings `NewMerkleTree` completes. -/
theorem merkleRoot_small_isSome (env : Env) (data : List Bytes) (h1 : 1 ≤ data.length)
    (h4 : data.length ≤ 4) : ∃ root, merkleRoot env data = some root := by
  match data, h1, h4 with
  | [a], _, _ => exact ⟨_, merkleRoot_one env a⟩
  | [a, b], _, _ => exact ⟨_, merkleRoot_two env a b⟩
  | [a, b, c], _, _ =>
    simp [merkleRoot, NewMerkleTree, NewMerkleTree.pad, NewMerkleTree.leaves,
      NewMerkleTree.levels, NewMerkleTree.level, NewMerkleNode, MerkleNode.Data]
  | [a, b, c, d], _, _ =>
    simp [merkleRoot, NewMerkleTree, NewMerkleTree.pad, NewMerkleTree.leaves,
      NewMerkleTree.levels, NewMerkleTree.level, NewMerkleNode, MerkleNode.Data]
  | _ :: _ :: _ :: _ :: _ :: _, _, h => simp at h

/-- The loop of `Run` returns whenever the header can be built. -/
theorem Run.loop_returns (env : Env) (pow : ProofOfWork) (root : Bytes)
    (hroot : HashTransactions env pow.block = some root) :
    ∀ (left nonce : Nat) (hash : Bytes), ∃ r, Run.loop env pow left nonce hash = some r
  | 0, nonce, hash => ⟨_, rfl⟩
  | left + 1, nonce, hash => by
    unfold Run.loop
    by_cases hlt : nonce < maxNonce
    · rw [if_pos hlt]
      simp only [prepareData, hroot]
      split
      · exact ⟨_, rfl⟩
      · exact Run.loop_returns env pow root hroot left (nonce + 1) _
    · rw [if_neg hlt]
      exact ⟨_, rfl⟩

/-- For a batch of one to four transactions `NewBlock` returns a block. -/
theorem NewBlock_returns (env : Env) (now : Int) (transactions : List Transaction)
    (prevBlockHash : Bytes) (height : Int) (h1 : 1 ≤ transactions.length)
    (h4 : transactions.length ≤ 4) :
    ∃ b, NewBlock env now transactions prevBlockHash height = some b := by
  obtain ⟨root, hroot⟩ := merkleRoot_small_isSome env (transactions.map env.txSerialize)
    (by simpa using h1) (by simpa using h4)
  obtain ⟨⟨n, h⟩, hrun⟩ := Run.loop_returns env
    (NewProofOfWork ⟨now, transactions, prevBlockHash, [], 0, height⟩) root hroot maxNonce 0
    (List.replicate 32 0)
  exact ⟨_, NewBlock_of_loop env now transactions prevBlockHash height n h hrun⟩

/-- The first loop of `MineBlock` passes when every transaction verifies. -/
theorem MineBlock.verifyAll_of_verified (env : Env) (fuel : Nat) (bc : Blockchain) :
    ∀ (transactions : List Transaction),
      (∀ tx ∈ transactions, VerifyTransaction env fuel bc tx = .ok true) →
      MineBlock.verifyAll env fuel bc transactions = .ok ()
  | [], _ => rfl
  | t :: rest, h => by
    unfold MineBlock.verifyAll
    rw [h t (List.mem_cons_self _ _)]
    exact MineBlock.verifyAll_of_verified env fuel bc rest
      (fun tx hmem => h tx (List.mem_cons_of_mem _ hmem))

/-- The call of `MineBlock` returns once the batch verifies, the tip names a
stored block, `NewBlock` returns and bolt accepts the encoded block. -/
theorem MineBlock_returns (env : Env) (fuel : Nat) (bc : Blockchain)
    (transactions : List Transaction) (now : Int) (tipBlock newBlock : Block)
    (htip : bc.db.Get tipKey = some bc.tip)
    (hst : StoredBlock env bc.db bc.tip tipBlock)
    (hverify : ∀ tx ∈ transactions, VerifyTransaction env fuel bc tx = .ok true)
    (hnew : NewBlock env now transactions bc.tip (addInt tipBlock.Height 1) = some newBlock)
    (hsize : (Serialize env newBlock).length ≤ 2147483646) :
    ∃ bc2, MineBlock env fuel bc transactions now = .ok (newBlock, bc2) := by
  obtain ⟨-, v, hv, hdec⟩ := hst
  have h2 : DeserializeBlock env (bc.db.Get bc.tip) = some tipBlock := by
    rw [hv]
    exact hdec
  have hlen := (NewBlock_fields env now transactions bc.tip _ newBlock hnew).2.2.2.2
  have hput1 : bc.db.Put newBlock.Hash (Serialize env newBlock) =
      some ⟨(newBlock.Hash, Serialize env newBlock) :: Bucket.remove newBlock.Hash
        bc.db.entries⟩ := by
    unfold Bucket.Put
    rw [if_neg (by omega)]
  have hput2 : ∀ b1 : Bucket, b1.Put tipKey newBlock.Hash =
      some ⟨(tipKey, newBlock.Hash) :: Bucket.remove tipKey b1.entries⟩ := by
    intro b1
    unfold Bucket.Put
    rw [if_neg (by simp [tipKey]; omega)]
  have hmine : MineBlock env fuel bc transactions now =
      .ok (newBlock, ⟨newBlock.Hash, ⟨(tipKey, newBlock.Hash) :: Bucket.remove tipKey
        ((newBlock.Hash, Serialize env newBlock) :: Bucket.remove newBlock.Hash
          bc.db.entries)⟩⟩) := by
    unfold MineBlock
    rw [MineBlock.verifyAll_of_verified env fuel bc transactions hverify]
    simp only [htip, h2, hnew, hput1, hput2]
  exact ⟨_, hmine⟩

/-- C14, as stated, fails when the tip block has the largest height a Go `int`
holds: in the toy store whose tip block has height `2^63 - 1`, the block
`MineBlock` returns has height `-2^63` and `GetBestHeight` returns `-2^63`
afterwards, not the previous height plus 1. It also fails for the batches on
which `NewMerkleTree` does not complete: on the toy genesis store `MineBlock`
returns no block for the empty batch and for a batch of five transactions that
all verify. -/
theorem MineBlock_height_wraps :
    Toy.topChain.db.Get tipKey = some Toy.topChain.tip ∧
    StoredBlock Toy.env Toy.topChain.db Toy.topChain.tip Toy.topBlock ∧
    GetBestHeight Toy.env Toy.topChain = some 9223372036854775807 ∧
    MineBlock Toy.env 1 Toy.topChain [Toy.coinbase] 1 =
      .ok (Toy.wrappedBlock, Toy.wrappedChain) ∧
    Toy.wrappedBlock.Height = -9223372036854775808 ∧
    GetBestHeight Toy.env Toy.wrappedChain = some (-9223372036854775808) ∧
    MineBlock Toy.env 1 Toy.chain0 [] 1 = .panic ∧
    (∀ tx ∈ List.replicate 5 Toy.coinbase,
      VerifyTransaction Toy.env 1 Toy.chain0 tx = .ok true) ∧
    MineBlock Toy.env 1 Toy.chain0 (List.replicate 5 Toy.coinbase) 1 = .panic :=
  ⟨by decide, ⟨by decide, Toy.encBlock Toy.topBlock, by decide,
      Toy.decBlock_encBlock Toy.topBlock⟩, by decide, by decide, rfl, by decide,
    by decide, by decide, by decide⟩

/-- What a returning `MineBlock` did, on a store whose tip names a stored block
of a height that plus one does not overflow. -/
theorem MineBlock_extends_of_ok (env : Env)
    (hgob : ∀ b, env.gobDecode (env.gobEncode b) = some b)
    (fuel : Nat) (bc bc2 : Blockchain) (transactions : List Transaction) (now : Int)
    (newBlock tipBlock : Block)
    (htip : bc.db.Get tipKey = some bc.tip)
    (hst : StoredBlock env bc.db bc.tip tipBlock)
    (hfits : addInt tipBlock.Height 1 = tipBlock.Height + 1)
    (hmine : MineBlock env fuel bc transactions now = .ok (newBlock, bc2)) :
    newBlock.PrevBlockHash = bc.tip ∧
    newBlock.Height = tipBlock.Height + 1 ∧
    newBlock.Transactions = transactions ∧
    bc2.db.Get newBlock.Hash = some (Serialize env newBlock) ∧
    StoredBlock env bc2.db newBlock.Hash newBlock ∧
    bc2.tip = newBlock.Hash ∧
    bc2.db.Get tipKey = some newBlock.Hash ∧
    GetBestHeight env bc = some tipBlock.Height ∧
    GetBestHeight env bc2 = some (tipBlock.Height + 1) := by
  obtain ⟨hprev, hheight, htx, hlen, ht, hget⟩ :=
    MineBlock_spec env fuel bc bc2 transactions now newBlock tipBlock htip hst hmine
  have hne := (hash32_ne _ hlen).2
  have hstored : StoredBlock env bc2.db newBlock.Hash newBlock :=
    (StoredBlock_extend env hgob bc.db bc2.db newBlock newBlock.Hash hne hget _ _).2
      (Or.inl ⟨rfl, rfl⟩)
  have htip2 : bc2.db.Get tipKey = some bc2.tip := by rw [hget, if_pos rfl, ht]
  have hh : newBlock.Height = tipBlock.Height + 1 := by rw [hheight, hfits]
  refine ⟨hprev, hh, htx, ?_, hstored, ht, ht ▸ htip2,
    GetBestHeight_of_stored env bc tipBlock htip hst, ?_⟩
  · rw [hget, if_neg hne, if_pos rfl]
    rfl
  · rw [GetBestHeight_of_stored env bc2 newBlock htip2 (ht ▸ hstored), hh]

/-- C14 (amended): `MineBlock` extends the tip by one while the height fits.
With gob decoding every block it encoded and bolt accepting the encoded new
block (at most `MaxValueSize` bytes), for every store whose tip names a stored
block of height below the largest Go `int` (height plus one does not overflow)
and every batch of one to four transactions that all verify, `MineBlock`
returns a block; the block has `PrevBlockHash` equal to the previous tip hash,
`Height` equal to the previous tip block's height plus 1 and the given
transactions; afterwards it is stored under its hash, the tip (in memory and
persisted) is its hash, and `GetBestHeight` returns the previous best height
plus 1. -/
theorem MineBlock_extends_tip (env : Env)
    (hgob : ∀ b, env.gobDecode (env.gobEncode b) = some b)
    (fuel : Nat) (bc : Blockchain) (transactions : List Transaction) (now : Int)
    (tipBlock : Block)
    (htip : bc.db.Get tipKey = some bc.tip)
    (hst : StoredBlock env bc.db bc.tip tipBlock)
    (hfits : addInt tipBlock.Height 1 = tipBlock.Height + 1)
    (hlen1 : 1 ≤ transactions.length) (hlen4 : transactions.length ≤ 4)
    (hverify : ∀ tx ∈ transactions, VerifyTransaction env fuel bc tx = .ok true)
    (hsize : ∀ nb, NewBlock env now transactions bc.tip (tipBlock.Height + 1) = some nb →
      (Serialize env nb).length ≤ 2147483646) :
    ∃ newBlock bc2, MineBlock env fuel bc transactions now = .ok (newBlock, bc2) ∧
      newBlock.PrevBlockHash = bc.tip ∧
      newBlock.Height = tipBlock.Height + 1 ∧
      newBlock.Transactions = transactions ∧
      bc2.db.Get newBlock.Hash = some (Serialize env newBlock) ∧
      StoredBlock env bc2.db newBlock.Hash newBlock ∧
      bc2.tip = newBlock.Hash ∧
      bc2.db.Get tipKey = some newBlock.Hash ∧
      GetBestHeight env bc = some tipBlock.Height ∧
      GetBestHeight env bc2 = some (tipBlock.Height + 1) := by
  obtain ⟨newBlock, hnew⟩ := NewBlock_returns env now transactions bc.tip
    (tipBlock.Height + 1) hlen1 hlen4
  have hnew2 : NewBlock env now transactions bc.tip (addInt tipBlock.Height 1) =
      some newBlock := by rw [hfits, hnew]
  obtain ⟨bc2, hmine⟩ := MineBlock_returns env fuel bc transactions now tipBlock newBlock
    htip hst hverify hnew2 (hsize newBlock hnew)
  exact ⟨newBlock, bc2, hmine, MineBlock_extends_of_ok env hgob fuel bc bc2 transactions now
    newBlock tipBlock htip hst hfits hmine⟩

/-- C14 (amended), on a concrete input: `MineBlock` of the batch `[coinbase]`
on the toy genesis store returns the block `minedBlock` of height 1. -/
theorem MineBlock_extends_tip_witness :
    MineBlock Toy.env 1 Toy.chain0 [Toy.coinbase] 1 = .ok (Toy.minedBlock, Toy.minedChain) ∧
    Toy.minedBlock.Height = 1 ∧
    GetBestHeight Toy.env Toy.minedChain = some 1 ∧
    ∃ newBlock bc2, MineBlock Toy.env 1 Toy.chain0 [Toy.coinbase] 1 = .ok (newBlock, bc2) ∧
      newBlock.PrevBlockHash = Toy.chain0.tip ∧
      newBlock.Height = Toy.genesis.Height + 1 ∧
      newBlock.Transactions = [Toy.coinbase] ∧
      bc2.db.Get newBlock.Hash = some (Serialize Toy.env newBlock) ∧
      StoredBlock Toy.env bc2.db newBlock.Hash newBlock ∧
      bc2.tip = newBlock.Hash ∧
      bc2.db.Get tipKey = some newBlock.Hash ∧
      GetBestHeight Toy.env Toy.chain0 = some Toy.genesis.Height ∧
      GetBestHeight Toy.env bc2 = some (Toy.genesis.Height + 1) :=
  ⟨by decide, by decide, by decide,
    MineBlock_extends_tip Toy.env Toy.decBlock_encBlock 1 Toy.chain0 [Toy.coinbase] 1
      Toy.genesis (by decide)
      ⟨by decide, Toy.encBlock Toy.genesis, by decide, Toy.decBlock_encBlock Toy.genesis⟩
      (by decide) (by decide) (by decide) (by decide)
      (fun nb hnb => by
        have hb : nb = Toy.minedBlock :=
          Option.some.inj (hnb.symm.trans (by decide :
            NewBlock Toy.env 1 [Toy.coinbase] Toy.chain0.tip (Toy.genesis.Height + 1) =
              some Toy.minedBlock))
        rw [hb]
        decide)⟩

/-- On a chain that a walk with `fuel` steps traverses, `FindTransaction`
returns. -/
theorem FindTransaction_returns (env : Env) (fuel : Nat) (bc : Blockchain)
    (blocks : List Block) (hchain : chainBlocks env fuel bc = .ok blocks) (ID : Bytes) :
    ∃ r, FindTransaction env fuel bc ID = .ok r :=
  ⟨_, FindTransaction.loop_scan env bc.db ID fuel (Iterator bc) blocks hchain⟩

/-- On such a chain the collecting loop of `VerifyTransaction` ends. -/
theorem VerifyTransaction.collect_ends (env : Env) (fuel : Nat) (bc : Blockchain)
    (blocks : List Block) (hchain : chainBlocks env fuel bc = .ok blocks) :
    ∀ (vins : List TXInput) (prevTXs : List (Bytes × Transaction)),
      VerifyTransaction.collect env fuel bc vins prevTXs ≠ .unfinished
  | [], prevTXs => by simp [VerifyTransaction.collect]
  | vin :: rest, prevTXs => by
    obtain ⟨r, hr⟩ := FindTransaction_returns env fuel bc blocks hchain vin.Txid
    unfold VerifyTransaction.collect
    rw [hr]
    cases r with
    | error e => simp
    | ok prevTX => exact VerifyTransaction.collect_ends env fuel bc blocks hchain rest _

/-- On such a chain `VerifyTransaction` ends: it returns or panics. -/
theorem VerifyTransaction_ends (env : Env) (fuel : Nat) (bc : Blockchain)
    (blocks : List Block) (hchain : chainBlocks env fuel bc = .ok blocks) (tx : Transaction) :
    VerifyTransaction env fuel bc tx ≠ .unfinished := by
  unfold VerifyTransaction
  split
  · simp
  · have hc := VerifyTransaction.collect_ends env fuel bc blocks hchain tx.Vin []
    cases hcol : VerifyTransaction.collect env fuel bc tx.Vin [] with
    | unfinished => exact absurd hcol hc
    | panic => simp
    | ok prevTXs =>
      simp only
      cases env.txVerify tx prevTXs <;> simp

/-- On such a chain the first loop of `MineBlock` panics when the batch holds a
transaction that does not verify. -/
theorem MineBlock.verifyAll_panics (env : Env) (fuel : Nat) (bc : Blockchain)
    (blocks : List Block) (hchain : chainBlocks env fuel bc = .ok blocks)
    (tx : Transaction) (hbad : VerifyTransaction env fuel bc tx = .ok false) :
    ∀ transactions : List Transaction, tx ∈ transactions →
      MineBlock.verifyAll env fuel bc transactions = .panic
  | [], hmem => by simp at hmem
  | t :: rest, hmem => by
    unfold MineBlock.verifyAll
    cases hv : VerifyTransaction env fuel bc t with
    | unfinished => exact absurd hv (VerifyTransaction_ends env fuel bc blocks hchain t)
    | panic => rfl
    | ok valid =>
      cases valid with
      | false => rfl
      | true =>
        simp only
        rcases List.mem_cons.mp hmem with rfl | hmem
        · rw [hbad] at hv
          cases hv
        · exact MineBlock.verifyAll_panics env fuel bc blocks hchain tx hbad rest hmem

/-- C15: `MineBlock` is all-or-nothing on invalid input. On a chain that the
walk from the tip traverses, if a transaction of the batch, at whatever
position, fails `VerifyTransaction`, then `MineBlock` aborts in its first loop,
whatever the clock, so without mining; the store it leaves (stored blocks,
persisted tip and in-memory tip) is the store it found. -/
theorem MineBlock_rejects_invalid (env : Env) (fuel : Nat) (bc : Blockchain)
    (blocks : List Block) (hchain : chainBlocks env fuel bc = .ok blocks)
    (pre post : List Transaction) (tx : Transaction)
    (hbad : VerifyTransaction env fuel bc tx = .ok false) (now : Int) :
    MineBlock.verifyAll env fuel bc (pre ++ tx :: post) = .panic ∧
    MineBlock env fuel bc (pre ++ tx :: post) now = .panic ∧
    MineBlock.storeAfter env fuel bc (pre ++ tx :: post) now = bc := by
  have hver := MineBlock.verifyAll_panics env fuel bc blocks hchain tx hbad (pre ++ tx :: post)
    (by simp)
  have hmine : MineBlock env fuel bc (pre ++ tx :: post) now = .panic := by
    simp only [MineBlock, hver]
  exact ⟨hver, hmine, by simp only [MineBlock.storeAfter, hmine]⟩

/-- C15, on a concrete input: with the verifier that rejects every signature,
a batch whose second transaction is the spending transaction. -/
theorem MineBlock_rejects_invalid_witness :
    chainBlocks Toy.strictEnv 1 Toy.chain0 = .ok [Toy.genesis] ∧
    VerifyTransaction Toy.strictEnv 1 Toy.chain0 Toy.spend = .ok false ∧
    MineBlock.verifyAll Toy.strictEnv 1 Toy.chain0 ([Toy.coinbase] ++ Toy.spend :: []) =
      .panic ∧
    MineBlock Toy.strictEnv 1 Toy.chain0 ([Toy.coinbase] ++ Toy.spend :: []) 1 = .panic ∧
    MineBlock.storeAfter Toy.strictEnv 1 Toy.chain0 ([Toy.coinbase] ++ Toy.spend :: []) 1 =
      Toy.chain0 :=
  ⟨by decide, by decide, MineBlock_rejects_invalid Toy.strictEnv 1 Toy.chain0 [Toy.genesis]
    (by decide) [Toy.coinbase] [] Toy.spend (by decide) 1⟩

/-! ## Lemmas on `FindUTXO` -/

/-- Looking a key up in a Go map after the pairs of a key were removed. -/
theorem mapGet_mapRemove {α : Type} (key k : Bytes) :
    ∀ m : List (Bytes × α),
      mapGet k (mapRemove key m) = if k = key then none else mapGet k m
  | [] => by simp [mapGet, mapRemove]
  | (k1, v1) :: rest => by
    have ih := mapGet_mapRemove key k rest
    by_cases h1 : k1 = key
    · by_cases h2 : k = key
      · subst h2
        simp only [if_true] at ih
        simp [mapRemove, h1, ih]
      · have h3 : ¬ key = k := fun h => h2 h.symm
        simp [mapRemove, mapGet, h1, ih, h2, h3]
    · by_cases h2 : k = key
      · subst h2
        simp only [if_true] at ih
        simp [mapRemove, mapGet, h1, ih]
      · simp [mapRemove, mapGet, h1, ih, h2]

/-- Looking a key up in a Go map after an assignment. -/
theorem mapGet_mapPut {α : Type} (m : List (Bytes × α)) (key k : Bytes) (v : α) :
    mapGet k (mapPut m key v) = if k = key then some v else mapGet k m := by
  by_cases hk : k = key
  · subst hk
    simp [mapPut, mapGet]
  · have hk2 : ¬ key = k := fun h => hk h.symm
    simp [mapPut, mapGet, mapGet_mapRemove, hk, hk2]

/-- The spent test reads the indices recorded under the id. -/
theorem FindUTXO.isSpent_eq (spentTXOs : List (Bytes × List Int)) (txID : Bytes) (outIdx : Nat) :
    FindUTXO.isSpent spentTXOs txID outIdx =
      decide ((outIdx : Int) ∈ (mapGet txID spentTXOs).getD []) := by
  unfold FindUTXO.isSpent
  cases mapGet txID spentTXOs <;> simp

/-- What the `Outputs` loop leaves in the map: under the id of the transaction,
the outputs listed so far followed by the outputs not recorded as spent, and no
new entry when there is no such output; the other entries are untouched. -/
theorem FindUTXO.outputs_get (spentTXOs : List (Bytes × List Int)) (txID : Bytes) :
    ∀ (outs : List TXOutput) (idx : Nat) (UTXO : List (Bytes × TXOutputs)) (k : Bytes),
      mapGet k (FindUTXO.outputs spentTXOs txID idx outs UTXO) =
        if k = txID then
          (if unreferenced ((mapGet txID spentTXOs).getD []) idx outs = [] then mapGet k UTXO
            else some ⟨outputsOf UTXO txID
              ++ unreferenced ((mapGet txID spentTXOs).getD []) idx outs⟩)
        else mapGet k UTXO
  | [], idx, UTXO, k => by simp [FindUTXO.outputs, unreferenced]
  | out :: rest, idx, UTXO, k => by
    unfold FindUTXO.outputs
    rw [FindUTXO.isSpent_eq]
    by_cases hs : (idx : Int) ∈ (mapGet txID spentTXOs).getD []
    · simp only [hs, decide_True, if_true, unreferenced]
      exact FindUTXO.outputs_get spentTXOs txID rest (idx + 1) UTXO k
    · have hout : ((mapGet txID UTXO).getD ⟨[]⟩).Outputs = outputsOf UTXO txID := by
        unfold outputsOf
        cases mapGet txID UTXO <;> rfl
      simp only [hs, decide_False, Bool.false_eq_true, if_false, unreferenced, hout]
      rw [FindUTXO.outputs_get spentTXOs txID rest (idx + 1) _ k]
      by_cases hk : k = txID
      · subst hk
        have hnew : outputsOf (mapPut UTXO k ⟨outputsOf UTXO k ++ [out]⟩) k =
            outputsOf UTXO k ++ [out] := by
          simp [outputsOf, mapGet_mapPut]
        simp only [if_true, hnew, mapGet_mapPut]
        by_cases he : unreferenced ((mapGet k spentTXOs).getD []) (idx + 1) rest = []
        · simp [he]
        · simp [he]
      · simp [hk, mapGet_mapPut]

/-- What the input loop leaves in the map of spent indices: under each id, the
indices recorded so far followed by those of the inputs that reference it. -/
theorem FindUTXO.inputs_get :
    ∀ (vins : List TXInput) (spentTXOs : List (Bytes × List Int)) (k : Bytes),
      (mapGet k (FindUTXO.inputs vins spentTXOs)).getD [] =
        (mapGet k spentTXOs).getD []
          ++ (vins.filter (fun vin => decide (vin.Txid = k))).map (fun vin => vin.Vout)
  | [], spentTXOs, k => by simp [FindUTXO.inputs]
  | vin :: rest, spentTXOs, k => by
    unfold FindUTXO.inputs
    rw [FindUTXO.inputs_get rest _ k, mapGet_mapPut]
    by_cases hk : k = vin.Txid
    · subst hk
      simp [List.filter]
    · have hk2 : ¬ vin.Txid = k := fun h => hk h.symm
      simp [List.filter, hk, hk2]

/-- The indices referenced in two runs of transactions, one after the other. -/
theorem referencedIn_append (id : Bytes) :
    ∀ l1 l2 : List Transaction,
      referencedIn id (l1 ++ l2) = referencedIn id l1 ++ referencedIn id l2
  | [], l2 => rfl
  | tx :: l1, l2 => by
    show referencedIn id (tx :: (l1 ++ l2)) = _
    simp only [referencedIn]
    rw [referencedIn_append id l1 l2, List.append_assoc]

/-- The transaction loop of `FindUTXO`, summed up: when the map of spent indices
holds what the transactions `earlier` reference and the map of outputs holds
`base`, the loop over `txs` leaves under every id `base` followed by what the
scan of `txs` lists there, and no entry where that is nothing. -/
theorem FindUTXO.transactions_get :
    ∀ (txs earlier : List Transaction) (UTXO : List (Bytes × TXOutputs))
      (spentTXOs : List (Bytes × List Int)) (base : Bytes → List TXOutput),
      (∀ k, (mapGet k spentTXOs).getD [] = referencedIn k earlier) →
      (∀ k, mapGet k UTXO = if base k = [] then none else some ⟨base k⟩) →
      ∀ k, mapGet k (FindUTXO.transactions txs (UTXO, spentTXOs)).1 =
        if base k ++ scanned k earlier txs = [] then none
        else some ⟨base k ++ scanned k earlier txs⟩
  | [], earlier, UTXO, spentTXOs, base, _, hU => by
    intro k
    simp only [FindUTXO.transactions, scanned, List.append_nil]
    exact hU k
  | tx :: rest, earlier, UTXO, spentTXOs, base, hS, hU => by
    intro k
    unfold FindUTXO.transactions
    have hbase : ∀ j, outputsOf UTXO j = base j := by
      intro j
      unfold outputsOf
      rw [hU j]
      by_cases hb : base j = []
      · simp [hb]
      · simp [hb]
    have hS2 : ∀ j, (mapGet j (if IsCoinbase tx = false then FindUTXO.inputs tx.Vin spentTXOs
        else spentTXOs)).getD [] = referencedIn j (earlier ++ [tx]) := by
      intro j
      rw [referencedIn_append]
      by_cases hc : IsCoinbase tx = false
      · simp only [hc, if_true, FindUTXO.inputs_get, hS j, referencedIn, List.append_nil]
      · have hc2 : IsCoinbase tx = true := by simpa using hc
        simp [hc2, hS j, referencedIn]
    have hU2 : ∀ j, mapGet j (FindUTXO.outputs spentTXOs tx.ID 0 tx.Vout UTXO) =
        if base j ++ (if tx.ID = j then unreferenced (referencedIn j earlier) 0 tx.Vout
            else []) = [] then none
        else some ⟨base j ++ (if tx.ID = j then unreferenced (referencedIn j earlier) 0 tx.Vout
            else [])⟩ := by
      intro j
      rw [FindUTXO.outputs_get]
      by_cases hj : j = tx.ID
      · subst hj
        simp only [if_true, hS, hbase]
        by_cases he : unreferenced (referencedIn tx.ID earlier) 0 tx.Vout = []
        · simp only [he, if_true, List.append_nil]
          exact hU _
        · simp [he]
      · have hj2 : ¬ tx.ID = j := fun h => hj h.symm
        simp only [hj, hj2, if_false, List.append_nil]
        exact hU j
    have ih := FindUTXO.transactions_get rest (earlier ++ [tx]) _ _
      (fun j => base j ++ (if tx.ID = j then unreferenced (referencedIn j earlier) 0 tx.Vout
        else [])) hS2 hU2 k
    rw [ih]
    simp only [scanned, List.append_assoc]

/-- `FindUTXO.transactions` over two runs of transactions, one after the other. -/
theorem FindUTXO.transactions_append :
    ∀ (l1 l2 : List Transaction) (maps : List (Bytes × TXOutputs) × List (Bytes × List Int)),
      FindUTXO.transactions (l1 ++ l2) maps =
        FindUTXO.transactions l2 (FindUTXO.transactions l1 maps)
  | [], l2, maps => rfl
  | tx :: l1, l2, (UTXO, spentTXOs) => by
    simp only [List.cons_append, FindUTXO.transactions]
    exact FindUTXO.transactions_append l1 l2 _

/-- On a chain that a walk with `fuel` steps traverses, the outer loop of
`FindUTXO` returns what its transaction loop makes of the chain in scan order. -/
theorem FindUTXO.loop_maps (env : Env) (db : Bucket) :
    ∀ (fuel : Nat) (bci : BlockchainIterator) (blocks : List Block)
      (maps : List (Bytes × TXOutputs) × List (Bytes × List Int)),
      chainBlocks.loop env db fuel bci = .ok blocks →
      FindUTXO.loop env db fuel bci maps =
        .ok (FindUTXO.transactions (scanOrder blocks) maps).1 := by
  intro fuel
  induction fuel with
  | zero => intro bci blocks maps h; simp [chainBlocks.loop] at h
  | succ fuel ih =>
    intro bci blocks maps h
    unfold chainBlocks.loop at h
    unfold FindUTXO.loop
    cases hnext : bci.Next env db with
    | none => simp [hnext] at h
    | some r =>
      obtain ⟨block, bci2⟩ := r
      simp only [hnext] at h ⊢
      by_cases hprev : block.PrevBlockHash.length = 0
      · rw [if_pos hprev] at h
        simp only [Outcome.ok.injEq] at h
        subst h
        simp only [if_pos hprev, scanOrder, List.append_nil]
      · rw [if_neg hprev] at h
        cases hrest : chainBlocks.loop env db fuel bci2 with
        | panic => simp [hrest] at h
        | unfinished => simp [hrest] at h
        | ok rest =>
          simp only [hrest, Outcome.ok.injEq] at h
          subst h
          simp only [if_neg hprev, scanOrder, FindUTXO.transactions_append]
          exact ih bci2 rest _ hrest

/-- `FindUTXO` on a chain, summed up: it returns, and under every id its map
lists what the scan of the chain lists there, with no entry where that is
nothing. -/
theorem FindUTXO_scanned (env : Env) (fuel : Nat) (bc : Blockchain) (blocks : List Block)
    (hchain : chainBlocks env fuel bc = .ok blocks) :
    ∃ UTXO, FindUTXO env fuel bc = .ok UTXO ∧
      ∀ k, mapGet k UTXO = if scanned k [] (scanOrder blocks) = [] then none
        else some ⟨scanned k [] (scanOrder blocks)⟩ := by
  refine ⟨_, FindUTXO.loop_maps env bc.db fuel (Iterator bc) blocks ([], []) hchain, ?_⟩
  intro k
  have h := FindUTXO.transactions_get (scanOrder blocks) [] [] [] (fun _ => [])
    (fun j => rfl) (fun j => rfl) k
  simpa using h

/-- The outputs kept by `unreferenced` are a sublist of the outputs. -/
theorem unreferenced_sublist (refs : List Int) :
    ∀ (outs : List TXOutput) (idx : Nat), List.Sublist (unreferenced refs idx outs) outs
  | [], _ => List.Sublist.slnil
  | out :: rest, idx => by
    unfold unreferenced
    split
    · exact List.Sublist.cons _ (unreferenced_sublist refs rest (idx + 1))
    · exact List.Sublist.cons₂ _ (unreferenced_sublist refs rest (idx + 1))

/-- With `index` among the references, the outputs kept by `unreferenced` are a
sublist of the outputs without the one at that position. -/
theorem unreferenced_erase (refs : List Int) (index : Nat) (href : (index : Int) ∈ refs) :
    ∀ (outs : List TXOutput) (idx : Nat), idx ≤ index →
      List.Sublist (unreferenced refs idx outs) (outs.eraseIdx (index - idx))
  | [], _, _ => by simp [unreferenced]
  | out :: rest, idx, hle => by
    by_cases he : idx = index
    · subst he
      simp only [Nat.sub_self, List.eraseIdx_cons_zero, unreferenced, href, if_true]
      exact unreferenced_sublist refs rest (idx + 1)
    · have hlt : idx + 1 ≤ index := by omega
      have hsub : index - idx = (index - (idx + 1)) + 1 := by omega
      rw [hsub, List.eraseIdx_cons_succ]
      have ih := unreferenced_erase refs index href rest (idx + 1) hlt
      unfold unreferenced
      split
      · exact List.Sublist.cons _ ih
      · exact List.Sublist.cons₂ _ ih

/-- `unreferenced` only looks at the references to the positions it visits. -/
theorem unreferenced_congr (refs1 refs2 : List Int) :
    ∀ (outs : List TXOutput) (idx : Nat),
      (∀ j : Nat, idx ≤ j → j < idx + outs.length →
        ((j : Int) ∈ refs1 ↔ (j : Int) ∈ refs2)) →
      unreferenced refs1 idx outs = unreferenced refs2 idx outs
  | [], _, _ => rfl
  | out :: rest, idx, h => by
    have h0 := h idx (le_refl _) (by simp)
    have ih := unreferenced_congr refs1 refs2 rest (idx + 1)
      (fun j hj1 hj2 => h j (by omega) (by simp only [List.length_cons]; omega))
    unfold unreferenced
    by_cases hm : (idx : Int) ∈ refs1
    · rw [if_pos hm, if_pos (h0.mp hm), ih]
    · rw [if_neg hm, if_neg (fun h2 => hm (h0.mpr h2)), ih]

/-- The references to `id` among `txs` are the indices of the inputs of its
non-coinbase transactions that name `id`. -/
theorem mem_referencedIn (id : Bytes) (x : Int) :
    ∀ txs : List Transaction, x ∈ referencedIn id txs ↔
      ∃ spender ∈ txs, IsCoinbase spender = false ∧
        ∃ vin ∈ spender.Vin, vin.Txid = id ∧ vin.Vout = x
  | [] => by simp [referencedIn]
  | tx :: rest => by
    simp only [referencedIn, List.mem_append, mem_referencedIn id x rest, List.mem_cons,
      exists_eq_or_imp]
    constructor
    · rintro (h | h)
      · left
        by_cases hc : IsCoinbase tx = false
        · rw [if_pos hc] at h
          obtain ⟨vin, hv, hx⟩ := List.mem_map.mp h
          obtain ⟨hv1, hv2⟩ := List.mem_filter.mp hv
          exact ⟨hc, vin, hv1, by simpa using hv2, hx⟩
        · rw [if_neg hc] at h
          simp at h
      · exact Or.inr h
    · rintro (⟨hc, vin, hv, hid, hx⟩ | h)
      · left
        rw [if_pos hc]
        exact List.mem_map.mpr ⟨vin, List.mem_filter.mpr ⟨hv, by simpa using hid⟩, hx⟩
      · exact Or.inr h

/-- The scan of two runs of transactions, one after the other. -/
theorem scanned_append (id : Bytes) :
    ∀ (l1 l2 earlier : List Transaction),
      scanned id earlier (l1 ++ l2) = scanned id earlier l1 ++ scanned id (earlier ++ l1) l2
  | [], l2, earlier => by simp [scanned]
  | tx :: l1, l2, earlier => by
    show scanned id earlier (tx :: (l1 ++ l2)) = _
    simp only [scanned]
    rw [scanned_append id l1 l2 (earlier ++ [tx])]
    simp only [List.append_assoc, List.singleton_append]

/-- The scan lists nothing under an id no transaction has. -/
theorem scanned_none (id : Bytes) :
    ∀ (txs earlier : List Transaction), (∀ tx ∈ txs, tx.ID ≠ id) → scanned id earlier txs = []
  | [], _, _ => rfl
  | tx :: rest, earlier, h => by
    have h1 : ¬ tx.ID = id := h tx (List.mem_cons_self tx rest)
    simp only [scanned, if_neg h1, List.nil_append]
    exact scanned_none id rest _ (fun t ht => h t (List.mem_cons_of_mem tx ht))

/-- Once `index` is referenced, the scan lists under `id` only outputs at other
positions. -/
theorem scanned_sublist (id : Bytes) (index : Nat) :
    ∀ (txs earlier : List Transaction), (index : Int) ∈ referencedIn id earlier →
      List.Sublist (scanned id earlier txs) (outputsExcept index id txs)
  | [], _, _ => List.Sublist.slnil
  | tx :: rest, earlier, href => by
    have href2 : (index : Int) ∈ referencedIn id (earlier ++ [tx]) := by
      rw [referencedIn_append]
      exact List.mem_append_left _ href
    have ih := scanned_sublist id index rest (earlier ++ [tx]) href2
    simp only [scanned, outputsExcept]
    refine List.Sublist.append ?_ ih
    by_cases h : tx.ID = id
    · rw [if_pos h, if_pos h]
      exact unreferenced_erase _ index href tx.Vout 0 (Nat.zero_le _)
    · rw [if_neg h, if_neg h]

/-- The outputs listed under an id in the map `FindUTXO` returns on a chain. -/
theorem outputsOf_scanned (UTXO : List (Bytes × TXOutputs)) (txs : List Transaction)
    (h : ∀ k, mapGet k UTXO = if scanned k [] txs = [] then none
      else some ⟨scanned k [] txs⟩) (k : Bytes) :
    outputsOf UTXO k = scanned k [] txs := by
  unfold outputsOf
  rw [h k]
  by_cases he : scanned k [] txs = []
  · simp [he]
  · simp [he]

/-- A tail of a scan in which spenders come first has them first as well. -/
theorem SpendersFirst_suffix :
    ∀ (pre txs : List Transaction), SpendersFirst (pre ++ txs) → SpendersFirst txs
  | [], _, h => h
  | _ :: pre, txs, h => SpendersFirst_suffix pre txs h.2

/-! ## Unspent outputs: the claims -/

/-- C11, as stated, fails: in the toy store after `MineBlock` of the batch
`[coinbase, spend]` on the genesis store, the non-coinbase transaction `spend`
has an input referencing output 0 of `coinbase`, and `FindUTXO` still returns
that output under the id of `coinbase`: the copy of `coinbase` in the new block
is visited before `spend`. -/
theorem FindUTXO_returns_spent_output :
    MineBlock Toy.env 1 Toy.chain0 [Toy.coinbase, Toy.spend] 1 =
      .ok (Toy.replayBlock, Toy.replayChain) ∧
    chainBlocks Toy.env 2 Toy.replayChain = .ok [Toy.replayBlock, Toy.genesis] ∧
    scanOrder [Toy.replayBlock, Toy.genesis] = [Toy.coinbase, Toy.spend, Toy.coinbase] ∧
    IsCoinbase Toy.spend = false ∧
    Toy.spend.Vin = [⟨Toy.coinbase.ID, 0, [5], [84]⟩] ∧
    Toy.coinbase.Vout = [⟨10, [7]⟩] ∧
    FindUTXO Toy.env 2 Toy.replayChain =
      .ok [([2], ⟨[⟨4, [8]⟩, ⟨6, [7]⟩]⟩), ([1], ⟨[⟨10, [7]⟩]⟩)] := by
  refine ⟨by decide, by decide, by decide, by decide, by decide, by decide, by decide⟩

/-- C11 (amended): `FindUTXO` does not return an output whose spender is
visited first. On every chain walked from tip to genesis, if a non-coinbase
transaction has an input referencing `(txid, index)` and is visited before
every transaction with id `txid`, then the outputs `FindUTXO` returns for
`txid` do not include the output at that index: they are, transaction by
transaction, a sublist of the outputs of the transactions with id `txid`
without the one at position `index`. -/
theorem FindUTXO_drops_spent (env : Env) (fuel : Nat) (bc : Blockchain)
    (blocks : List Block) (hchain : chainBlocks env fuel bc = .ok blocks)
    (pre post : List Transaction) (spender : Transaction) (vin : TXInput)
    (txid : Bytes) (index : Nat)
    (hsplit : scanOrder blocks = pre ++ post) (hspender : spender ∈ pre)
    (hcb : IsCoinbase spender = false) (hvin : vin ∈ spender.Vin)
    (hid : vin.Txid = txid) (hidx : vin.Vout = (index : Int))
    (hbefore : ∀ tx ∈ pre, tx.ID ≠ txid) :
    ∃ UTXO, FindUTXO env fuel bc = .ok UTXO ∧
      List.Sublist (outputsOf UTXO txid) (outputsExcept index txid (scanOrder blocks)) := by
  obtain ⟨UTXO, hfind, hget⟩ := FindUTXO_scanned env fuel bc blocks hchain
  have href : (index : Int) ∈ referencedIn txid pre :=
    (mem_referencedIn txid _ pre).mpr ⟨spender, hspender, hcb, vin, hvin, hid, hidx⟩
  have hexc : ∀ l : List Transaction, (∀ tx ∈ l, tx.ID ≠ txid) →
      ∀ l2, outputsExcept index txid (l ++ l2) = outputsExcept index txid l2 := by
    intro l
    induction l with
    | nil => intro _ l2; rfl
    | cons t l ih =>
      intro h l2
      have h1 : ¬ t.ID = txid := h t (List.mem_cons_self t l)
      show outputsExcept index txid (t :: (l ++ l2)) = _
      simp only [outputsExcept, if_neg h1, List.nil_append]
      exact ih (fun x hx => h x (List.mem_cons_of_mem t hx)) l2
  refine ⟨UTXO, hfind, ?_⟩
  rw [outputsOf_scanned UTXO _ hget txid, hsplit, hexc pre hbefore post, scanned_append,
    scanned_none txid pre [] hbefore, List.nil_append, List.nil_append]
  exact scanned_sublist txid index post pre href

/-- C11 (amended), on a concrete input: the toy store after `MineBlock` of
`[spend]` on the genesis store; `spend` is visited before `coinbase`. -/
theorem FindUTXO_drops_spent_witness :
    chainBlocks Toy.env 2 Toy.spendChain = .ok [Toy.spendBlock, Toy.genesis] ∧
    FindUTXO Toy.env 2 Toy.spendChain = .ok [([2], ⟨[⟨4, [8]⟩, ⟨6, [7]⟩]⟩)] ∧
    ∃ UTXO, FindUTXO Toy.env 2 Toy.spendChain = .ok UTXO ∧
      List.Sublist (outputsOf UTXO [1])
        (outputsExcept 0 [1] (scanOrder [Toy.spendBlock, Toy.genesis])) :=
  ⟨by decide, by decide,
    FindUTXO_drops_spent Toy.env 2 Toy.spendChain [Toy.spendBlock, Toy.genesis] (by decide)
      [Toy.spend] [Toy.coinbase] Toy.spend ⟨[1], 0, [5], [84]⟩ [1] 0 (by decide) (by decide)
      (by decide) (by decide) rfl rfl (by decide)⟩

/-- C12: the spend scenario. For the chain whose genesis block holds one
coinbase transaction with a single output of value 10 locked to `X`, and whose
next block holds one transaction (with another id) whose only input references
output 0 of that coinbase and whose outputs are 4 locked to `Y` and 6 locked to
`X`, `FindUTXO` returns exactly the two outputs (4 to `Y`, 6 to `X`) under the
spending transaction's id and has no entry for the coinbase transaction's id,
nor for any other id. -/
theorem FindUTXO_spend_scenario (env : Env) (fuel : Nat) (bc : Blockchain)
    (genesis next : Block) (cbid sid X Y sig data sig2 key : Bytes)
    (hchain : chainBlocks env fuel bc = .ok [next, genesis])
    (hgen : genesis.Transactions = [⟨cbid, [⟨[], -1, sig, data⟩], [⟨10, X⟩]⟩])
    (hnext : next.Transactions = [⟨sid, [⟨cbid, 0, sig2, key⟩], [⟨4, Y⟩, ⟨6, X⟩]⟩])
    (hids : sid ≠ cbid) :
    ∃ UTXO, FindUTXO env fuel bc = .ok UTXO ∧
      mapGet sid UTXO = some ⟨[⟨4, Y⟩, ⟨6, X⟩]⟩ ∧
      mapGet cbid UTXO = none ∧
      ∀ k, k ≠ sid → mapGet k UTXO = none := by
  obtain ⟨UTXO, hfind, hget⟩ := FindUTXO_scanned env fuel bc [next, genesis] hchain
  have hids2 : ¬ cbid = sid := fun h => hids h.symm
  have hscan : ∀ k, scanned k [] (scanOrder [next, genesis]) =
      if k = sid then [⟨4, Y⟩, ⟨6, X⟩] else [] := by
    intro k
    by_cases hk : k = sid
    · subst hk
      simp [scanOrder, hgen, hnext, scanned, referencedIn, unreferenced, hids2]
    · have hk2 : ¬ sid = k := fun h => hk h.symm
      by_cases hc : cbid = k
      · subst hc
        simp [scanOrder, hgen, hnext, scanned, referencedIn, unreferenced, hk, hk2, IsCoinbase]
      · simp [scanOrder, hgen, hnext, scanned, hk, hk2, hc]
  refine ⟨UTXO, hfind, ?_, ?_, fun k hk => ?_⟩
  · rw [hget, hscan]
    simp
  · rw [hget, hscan]
    simp [hids2]
  · rw [hget, hscan]
    simp [hk]

/-- C12, on a concrete input: the toy store after `MineBlock` of `[spend]` on
the genesis store, with `X = [7]` and `Y = [8]`. -/
theorem FindUTXO_spend_scenario_witness :
    chainBlocks Toy.env 2 Toy.spendChain = .ok [Toy.spendBlock, Toy.genesis] ∧
    ∃ UTXO, FindUTXO Toy.env 2 Toy.spendChain = .ok UTXO ∧
      mapGet [2] UTXO = some ⟨[⟨4, [8]⟩, ⟨6, [7]⟩]⟩ ∧
      mapGet [1] UTXO = none ∧
      ∀ k, k ≠ [2] → mapGet k UTXO = none :=
  ⟨by decide, FindUTXO_spend_scenario Toy.env 2 Toy.spendChain Toy.genesis Toy.spendBlock
    [1] [2] [7] [8] [] [84] [5] [84] (by decide) rfl rfl (by decide)⟩

/-- C19, as stated, fails when two visited transactions share an id: in the toy
store after `MineBlock` of `[coinbase]` on the genesis store no transaction is
spent, the coinbase transaction has one output, and `FindUTXO` returns two
outputs under its id, one for each block that holds it. -/
theorem FindUTXO_duplicate_id :
    MineBlock Toy.env 1 Toy.chain0 [Toy.coinbase] 1 = .ok (Toy.minedBlock, Toy.minedChain) ∧
    chainBlocks Toy.env 2 Toy.minedChain = .ok [Toy.minedBlock, Toy.genesis] ∧
    scanOrder [Toy.minedBlock, Toy.genesis] = [Toy.coinbase, Toy.coinbase] ∧
    SpendersFirst [Toy.coinbase, Toy.coinbase] ∧
    unreferenced (referencedIn Toy.coinbase.ID [Toy.coinbase, Toy.coinbase]) 0
      Toy.coinbase.Vout = [⟨10, [7]⟩] ∧
    FindUTXO Toy.env 2 Toy.minedChain = .ok [([1], ⟨[⟨10, [7]⟩, ⟨10, [7]⟩]⟩)] := by
  refine ⟨by decide, by decide, by decide, by decide, by decide, by decide⟩

/-- C19 (amended): `FindUTXO` is exact when spenders are scanned first, for
the ids that one transaction has. On every chain in which each transaction that
spends an output is visited before the transaction owning that output,
`FindUTXO` returns for each visited transaction whose id no other visited
transaction has exactly its outputs whose index no non-coinbase input in the
chain references, in increasing index order; it has no entry for such a
transaction when all its outputs are spent, and none for an id that no visited
transaction has. -/
theorem FindUTXO_exact (env : Env) (fuel : Nat) (bc : Blockchain) (blocks : List Block)
    (hchain : chainBlocks env fuel bc = .ok blocks)
    (hfirst : SpendersFirst (scanOrder blocks)) :
    ∃ UTXO, FindUTXO env fuel bc = .ok UTXO ∧
      (∀ pre tx post, scanOrder blocks = pre ++ tx :: post →
        (∀ other, other ∈ pre ∨ other ∈ post → other.ID ≠ tx.ID) →
        mapGet tx.ID UTXO =
          if unreferenced (referencedIn tx.ID (scanOrder blocks)) 0 tx.Vout = [] then none
          else some ⟨unreferenced (referencedIn tx.ID (scanOrder blocks)) 0 tx.Vout⟩) ∧
      ∀ id, (∀ tx ∈ scanOrder blocks, tx.ID ≠ id) → mapGet id UTXO = none := by
  obtain ⟨UTXO, hfind, hget⟩ := FindUTXO_scanned env fuel bc blocks hchain
  refine ⟨UTXO, hfind, fun pre tx post hsplit hnd => ?_, fun id hno => ?_⟩
  · rw [hsplit] at hfirst
    have hhead := (SpendersFirst_suffix pre (tx :: post) hfirst).1
    have hscan : scanned tx.ID [] (scanOrder blocks) =
        unreferenced (referencedIn tx.ID (scanOrder blocks)) 0 tx.Vout := by
      rw [hsplit, scanned_append, scanned_none tx.ID pre [] (fun t ht => hnd t (Or.inl ht))]
      simp only [List.nil_append, scanned, if_true]
      rw [scanned_none tx.ID post _ (fun t ht => hnd t (Or.inr ht)), List.append_nil]
      refine unreferenced_congr _ _ tx.Vout 0 (fun j _ hj => ?_)
      rw [referencedIn_append]
      constructor
      · exact fun h => List.mem_append_left _ h
      · intro h
        rcases List.mem_append.mp h with h | h
        · exact h
        · obtain ⟨spender, hs, hc, vin, hv, hid, hx⟩ := (mem_referencedIn tx.ID _ _).mp h
          exact absurd ⟨by omega, by omega⟩ (hhead spender hs hc vin hv hid)
    rw [hget, hscan]
  · rw [hget, scanned_none id _ [] hno]
    simp

/-- C19 (amended), on a concrete input: the toy store after `MineBlock` of
`[spend]` on the genesis store, where the spending transaction keeps both
outputs and the coinbase transaction, whose one output is spent, has no
entry. -/
theorem FindUTXO_exact_witness :
    chainBlocks Toy.env 2 Toy.spendChain = .ok [Toy.spendBlock, Toy.genesis] ∧
    scanOrder [Toy.spendBlock, Toy.genesis] = [Toy.spend, Toy.coinbase] ∧
    FindUTXO Toy.env 2 Toy.spendChain = .ok [([2], ⟨[⟨4, [8]⟩, ⟨6, [7]⟩]⟩)] ∧
    ∃ UTXO, FindUTXO Toy.env 2 Toy.spendChain = .ok UTXO ∧
      (∀ pre tx post, scanOrder [Toy.spendBlock, Toy.genesis] = pre ++ tx :: post →
        (∀ other, other ∈ pre ∨ other ∈ post → other.ID ≠ tx.ID) →
        mapGet tx.ID UTXO =
          if unreferenced (referencedIn tx.ID (scanOrder [Toy.spendBlock, Toy.genesis])) 0
              tx.Vout = [] then none
          else some ⟨unreferenced
            (referencedIn tx.ID (scanOrder [Toy.spendBlock, Toy.genesis])) 0 tx.Vout⟩) ∧
      ∀ id, (∀ tx ∈ scanOrder [Toy.spendBlock, Toy.genesis], tx.ID ≠ id) →
        mapGet id UTXO = none :=
  ⟨by decide, by decide, by decide,
    FindUTXO_exact Toy.env 2 Toy.spendChain [Toy.spendBlock, Toy.genesis] (by decide)
      (by decide)⟩

end BlockchainGo
